import Mathlib

set_option maxHeartbeats 1000000

/-!
Verification of `wikidump/extractors/wikibreaks.py` (wikibreak template
extraction).

The two verbose pattern templates `wikibreak_pattern` and
`wikibreak_empty_pattern` of the source are compiled, for every vocabulary
word `w`, as `re.compile(template % w.lower(), IGNORECASE | UNICODE |
VERBOSE | MULTILINE)`.  After VERBOSE stripping of the layout whitespace and
comments, the two compiled patterns are

  opt   : \x5c{\x5c{(?:\s|\_)*(?P<type>WORD)(?:\s|\_)*\|(?P<options>[^\x7b]*)\x5c}\x5c}
  empty : \x5c{\x5c{(?:\s|\_)*(?P<type>WORD)(?P<options>(?:\s|\_)*)\x5c}\x5c}

We embed the matching semantics of these two concrete shapes directly as
recursive functions on `List Char`: the greedy runs `(?:\s|\_)*`, the
case-insensitive literal word (ASCII case folding; the vocabulary word is
embedded after `str.lower()` and after VERBOSE whitespace stripping), the
greedy-with-backtracking `[^\x7b]*\x7d\x7d` tail, and the left-to-right
non-overlapping `finditer` scan.  The embedding is faithful for vocabulary
words free of regex metacharacters (the theorems about arbitrary
vocabularies carry an explicit alphanumeric-word hypothesis where word
shape matters).

The generator `wikibreaks_extractor` is embedded with its exact control
flow: per match, the `check_wikibreaks_presence` / `check_options` group
lookups, the `if not wiki_name: write_error(...); return` abort (a `return`
inside the generator, which terminates the whole iteration), the option
pipeline `.strip().replace('_','').split('|')` and the `[''] -> []`
collapse.  The warning channel `write_error` (in
`utils/language_utils_functions.py`, outside `src/`) is modelled from the
spec as an observable warning output of the extractor.
-/

namespace Wikidump

/-- Python ASCII whitespace: the characters stripped by `str.strip()` and
matched by the pattern class `\s` (restricted to the ASCII range). -/
def pySpace (c : Char) : Bool :=
  c = ' ' || c = '\t' || c = '\n' || c = '\r' || c = '\x0b' || c = '\x0c'

/-- Characters absorbed by the greedy runs `(?:\s|\_)*` appearing in both
pattern templates: whitespace or underscore. -/
def spaceUnd (c : Char) : Bool :=
  pySpace c || c = '_'

/-- ASCII lower-casing, modelling `str.lower()` and IGNORECASE folding on
the ASCII range. -/
def pyLower (c : Char) : Char :=
  if 65 ≤ c.toNat ∧ c.toNat ≤ 90 then Char.ofNat (c.toNat + 32) else c

/-- ASCII alphanumeric character (a-z, A-Z, 0-9): the shape of vocabulary
words for which the literal embedding of `%s` into the pattern template is
faithful (no regex metacharacters, nothing stripped by VERBOSE mode). -/
def plainChar (c : Char) : Bool :=
  (97 ≤ c.toNat && c.toNat ≤ 122) || (65 ≤ c.toNat && c.toNat ≤ 90) ||
    (48 ≤ c.toNat && c.toNat ≤ 57)

/-- Nonempty alphanumeric word. -/
def plainWord (s : String) : Bool :=
  !s.data.isEmpty && s.data.all plainChar

/-- Lower-case a whole string (models `str.lower()` on ASCII). -/
def lowerString (s : String) : String :=
  ⟨s.data.map pyLower⟩

/-- Case-insensitive match of the embedded literal word `w` (already
lower-cased at compile time) against a prefix of the input: returns the
matched input characters (original case, as captured by the `type` group)
and the rest of the input. -/
def matchLit : List Char → List Char → Option (List Char × List Char)
  | [], s => some ([], s)
  | _ :: _, [] => none
  | c :: w, d :: s =>
    if pyLower d = c then
      (matchLit w s).map (fun p => (d :: p.1, p.2))
    else none

/-- Greedy-with-backtracking semantics of `[^\x7b]*\x7d\x7d`: split the
input into the longest `\x7b`-free options capture followed by the literal
`\x7d\x7d`, returning the capture and the input after the two closing
braces. -/
def lastCloseSplit : List Char → Option (List Char × List Char)
  | [] => none
  | c :: s =>
    if c = '\x7b' then none
    else
      match lastCloseSplit s with
      | some (o, r) => some (c :: o, r)
      | none =>
        if c = '\x7d' then
          match s with
          | d :: r => if d = '\x7d' then some ([], r) else none
          | [] => none
        else none

/-- Anchored match of the option-bearing compiled shape
`\x5c{\x5c{(?:\s|\_)*(?P<type>w)(?:\s|\_)*\|(?P<options>[^\x7b]*)\x5c}\x5c}`
at the head of the input.  On success returns
(matched text, `type` capture, `options` capture, rest of input). -/
def matchAtOpt (w : List Char) (s : List Char) :
    Option (List Char × List Char × List Char × List Char) :=
  match s with
  | a :: b :: s1 =>
    if a = '\x7b' ∧ b = '\x7b' then
      let sp1 := s1.takeWhile spaceUnd
      match matchLit w (s1.dropWhile spaceUnd) with
      | none => none
      | some (ty, s3) =>
        let sp2 := s3.takeWhile spaceUnd
        match s3.dropWhile spaceUnd with
        | c :: s5 =>
          if c = '|' then
            match lastCloseSplit s5 with
            | none => none
            | some (op, rest) =>
              some ('\x7b' :: '\x7b' ::
                  (sp1 ++ ty ++ sp2 ++ '|' :: (op ++ ['\x7d', '\x7d'])),
                ty, op, rest)
          else none
        | [] => none
    else none
  | _ => none

/-- Anchored match of the empty compiled shape
`\x5c{\x5c{(?:\s|\_)*(?P<type>w)(?P<options>(?:\s|\_)*)\x5c}\x5c}` at the
head of the input. -/
def matchAtEmpty (w : List Char) (s : List Char) :
    Option (List Char × List Char × List Char × List Char) :=
  match s with
  | a :: b :: s1 =>
    if a = '\x7b' ∧ b = '\x7b' then
      let sp1 := s1.takeWhile spaceUnd
      match matchLit w (s1.dropWhile spaceUnd) with
      | none => none
      | some (ty, s3) =>
        let op := s3.takeWhile spaceUnd
        match s3.dropWhile spaceUnd with
        | c :: d :: rest =>
          if c = '\x7d' ∧ d = '\x7d' then
            some ('\x7b' :: '\x7b' :: (sp1 ++ ty ++ op ++ ['\x7d', '\x7d']),
              ty, op, rest)
          else none
        | _ => none
    else none
  | _ => none

/-- Which of the two pattern templates a compiled matcher instantiates. -/
inductive Shape where
  | optionBearing
  | emptyShape
deriving DecidableEq

/-- One compiled pattern of the matcher set: the embedded (lower-cased)
vocabulary word together with the template it was substituted into. -/
structure Matcher where
  word : List Char
  shape : Shape
deriving DecidableEq

/-- Anchored match of a compiled matcher at the head of the input. -/
def matchAt (m : Matcher) (s : List Char) :
    Option (List Char × List Char × List Char × List Char) :=
  match m.shape with
  | .optionBearing => matchAtOpt m.word s
  | .emptyShape => matchAtEmpty m.word s

/-- Modelled from the spec: a `regex` match object, reduced to what the
extractor reads from it — the span in the scanned text and the named
capture groups (`match.group(name)` raising `IndexError` for a missing
name is modelled by an `Option`-valued lookup). -/
structure RawMatch where
  span : Nat × Nat
  groups : List (String × String)
deriving DecidableEq

/-- Named-group access, `match.group(name)`. -/
def RawMatch.group (m : RawMatch) (g : String) : Option String :=
  m.groups.lookup g

/-- Left-to-right non-overlapping scan (`pattern.finditer(text)`): at each
position try an anchored match; on success emit the match (with both named
groups) and resume after its end.  `skip` counts positions still covered by
the previous match. -/
def scanAux (m : Matcher) : List Char → Nat → Nat → List RawMatch
  | [], _, _ => []
  | _ :: s, pos, k + 1 => scanAux m s (pos + 1) k
  | c :: s, pos, 0 =>
    match matchAt m (c :: s) with
    | some (mt, ty, op, _) =>
      ⟨(pos, pos + mt.length), [("type", ⟨ty⟩), ("options", ⟨op⟩)]⟩
        :: scanAux m s (pos + 1) (mt.length - 1)
    | none => scanAux m s (pos + 1) 0

/-- All matches of one compiled pattern over a text, in scan order. -/
def runMatcher (m : Matcher) (text : List Char) : List RawMatch :=
  scanAux m text 0 0

/-- Modelled from the spec: the result container `Wikibreak` of
`extractors/types/wikibreak.py` (outside `src/`) — per the spec a plain
record of the type name and the ordered option list, with no behaviour of
its own. -/
structure Wikibreak where
  wikibreak_name : String
  options : List String
deriving DecidableEq

/-- Modelled from the spec: the result wrapper `CaptureResult` of
`extractors/common.py` (outside `src/`) — the annotation plus its
`(start, end)` span in the scanned text. -/
structure CaptureResult (T : Type) where
  data : T
  span : Nat × Nat
deriving DecidableEq

/-- Modelled from the spec: one emission on the warning channel
(`write_error(pattern, match)`), recording the pattern and the offending
match. -/
abbrev Warning := Matcher × RawMatch

/-- Compile-time preparation of one vocabulary word: `str.lower()` (the
`w_word.lower()` of the source) followed by the whitespace stripping the
VERBOSE flag applies to the substituted pattern text. -/
def buildWord (w : String) : List Char :=
  (w.data.map pyLower).filter (fun c => !pySpace c)

/-- The list `WIKIBREAKS_PATTERN_REs`: one option-bearing matcher per
vocabulary word, in vocabulary order. -/
def WIKIBREAKS_PATTERN_REs (voc : List String) : List Matcher :=
  voc.map (fun w => ⟨buildWord w, .optionBearing⟩)

/-- The list `WIKIBREAKS_EMPTY_PATTERN_REs`: one empty-shape matcher per
vocabulary word, in vocabulary order. -/
def WIKIBREAKS_EMPTY_PATTERN_REs (voc : List String) : List Matcher :=
  voc.map (fun w => ⟨buildWord w, .emptyShape⟩)

/-- The list `WIKIBREAKS_REs`: all option-bearing matchers, then all
empty-shape matchers. -/
def WIKIBREAKS_REs (voc : List String) : List Matcher :=
  WIKIBREAKS_PATTERN_REs voc ++ WIKIBREAKS_EMPTY_PATTERN_REs voc

/-- Python `str.strip()` on a character list. -/
def pyStripL (s : List Char) : List Char :=
  ((s.dropWhile pySpace).reverse.dropWhile pySpace).reverse

/-- Python `str.split('|')`. -/
def splitPipe : List Char → List (List Char)
  | [] => [[]]
  | c :: s =>
    if c = '|' then [] :: splitPipe s
    else
      match splitPipe s with
      | [] => [[c]]
      | g :: gs => (c :: g) :: gs

/-- The option pipeline of line 147 of the source:
`match.group('options').strip().replace('_', '').split('|')`, followed by
the lines 150-151 collapse of the single-empty-segment result to no
options. -/
def parse_options (raw : String) : List String :=
  let parsed := splitPipe ((pyStripL raw.data).filter (fun c => c != '_'))
  if parsed = [[]] then [] else parsed.map (fun l => ⟨l⟩)

/-- Line 157-163 of the source: `check_options` — whether the match object
has an `options` group. -/
def check_options (m : RawMatch) : Bool :=
  (m.group "options").isSome

/-- Line 165-171 of the source: `check_wikibreaks_presence` — whether the
match object has a `type` group. -/
def check_wikibreaks_presence (m : RawMatch) : Bool :=
  (m.group "type").isSome

/-- Outcome of the extractor's per-match body (lines 134-155). -/
inductive MatchStep where
  | yield (r : CaptureResult Wikibreak)
  | skip
  | abort
deriving DecidableEq

/-- Per-match body of `wikibreaks_extractor`: read the `type` group (skip
the match when the group is missing, as `check_wikibreaks_presence`
reports); on an empty capture report the structural inconsistency and abort
(`write_error(pattern, match); return`); otherwise build the `Wikibreak`
and parse the options when the `options` group is present. -/
def handleMatch (m : RawMatch) : MatchStep :=
  match m.group "type" with
  | none => .skip
  | some wiki_name =>
    if wiki_name = "" then .abort
    else
      let opts :=
        match m.group "options" with
        | none => []
        | some raw => parse_options raw
      .yield ⟨⟨wiki_name, opts⟩, m.span⟩

/-- Process one matcher's match list in order: the yielded results before
the first aborting match, and that match if one occurs. -/
def consume : List RawMatch → List (CaptureResult Wikibreak) × Option RawMatch
  | [] => ([], none)
  | m :: ms =>
    match handleMatch m with
    | .yield r =>
      let (rs, ab) := consume ms
      (r :: rs, ab)
    | .skip => consume ms
    | .abort => ([], some m)

/-- The outer loop of `wikibreaks_extractor` over `WIKIBREAKS_REs`: the
`return` on an empty `type` capture terminates the whole generator, so an
abort inside one matcher stops every remaining matcher as well, after one
warning-channel report. -/
def wikibreaks_extractor_go :
    List Matcher → List Char → List (CaptureResult Wikibreak) × List Warning
  | [], _ => ([], [])
  | mr :: rest, text =>
    match consume (runMatcher mr text) with
    | (rs, some bad) => (rs, [(mr, bad)])
    | (rs, none) =>
      let (rs2, ws) := wikibreaks_extractor_go rest text
      (rs ++ rs2, ws)

/-- The generator `wikibreaks_extractor(text)` for a configured vocabulary:
the sequence of yielded `CaptureResult`s together with the warning-channel
reports (at most one, since a warning aborts the generator). -/
def wikibreaks_extractor (voc : List String) (text : String) :
    List (CaptureResult Wikibreak) × List Warning :=
  wikibreaks_extractor_go (WIKIBREAKS_REs voc) text.data

/-- Results a single matcher's matches contribute when no abort occurs:
the per-match body applied to each match, keeping the yields. -/
def yieldsOf (l : List RawMatch) : List (CaptureResult Wikibreak) :=
  l.filterMap (fun m =>
    match handleMatch m with
    | .yield r => some r
    | _ => none)

/-- Head of the option-bearing pattern template, up to the `%s` slot (after
VERBOSE stripping): `\x5c{\x5c{(?:\s|\_)*(?P<type>`. -/
def wikibreak_pattern_head : String :=
  "\\\x7b\\\x7b(?:\\s|\\_)*(?P<type>"

/-- Tail of the option-bearing pattern template, after the `%s` slot:
`)(?:\s|\_)*\|(?P<options>[^\x7b]*)\x5c}\x5c}`. -/
def wikibreak_pattern_tail : String :=
  ")(?:\\s|\\_)*\\|(?P<options>[^\x7b]*)\\\x7d\\\x7d"

/-- Tail of the empty pattern template, after the `%s` slot:
`)(?P<options>(?:\s|\_)*)\x5c}\x5c}`. -/
def wikibreak_empty_pattern_tail : String :=
  ")(?P<options>(?:\\s|\\_)*)\\\x7d\\\x7d"

/-- The string `wikibreak_pattern % w`: plain substitution of the word into
the option-bearing template, exactly as line 120 of the source performs it
(no escaping of any kind is applied to `w`). -/
def wikibreak_pattern_built (w : String) : String :=
  wikibreak_pattern_head ++ w ++ wikibreak_pattern_tail

/-- The string `wikibreak_empty_pattern % w` of line 125. -/
def wikibreak_empty_pattern_built (w : String) : String :=
  wikibreak_pattern_head ++ w ++ wikibreak_empty_pattern_tail

/-- Modelled from the spec: the characters `re.escape` treats as special
(`()[]\x7b\x7d?*+-|^$\x5c.&~# \t\n\r\v\f`). -/
def re_escape_special (c : Char) : Bool :=
  c = '(' || c = ')' || c = '[' || c = ']' || c = '\x7b' || c = '\x7d' ||
    c = '?' || c = '*' || c = '+' || c = '-' || c = '|' || c = '^' ||
    c = '$' || c = '\\' || c = '.' || c = '&' || c = '~' || c = '#' ||
    c = ' ' || c = '\t' || c = '\n' || c = '\r' || c = '\x0b' || c = '\x0c'

/-- Modelled from the spec: "names must be escaped for literal matching
before substitution" — `re.escape`, prefixing every special character with
a backslash. -/
def re_escape (s : String) : String :=
  ⟨(s.data.map (fun c => if re_escape_special c then ['\\', c] else [c])).flatten⟩

/-- Modelled from the spec: the pattern construction the claim describes,
which escapes the vocabulary name for literal matching before substituting
it into the option-bearing template. -/
def wikibreak_pattern_escaped_built (w : String) : String :=
  wikibreak_pattern_head ++ re_escape w ++ wikibreak_pattern_tail

/-- Whether a pattern string defines the named group `g`, i.e. contains the
group opener `(?P<g>`. -/
def definesGroup (p : String) (g : String) : Prop :=
  ∃ a b, p.data = a ++ ("(?P<" ++ g ++ ">").data ++ b

/-- Modelled from the spec: the overall iteration order the spec describes
— "for each vocabulary entry, option-bearing matches then empty matches"
(per entry both shapes together, entries in vocabulary order). -/
def claimed_entry_order (voc : List String) (text : String) :
    List (CaptureResult Wikibreak) :=
  (voc.map (fun w =>
    yieldsOf (runMatcher ⟨buildWord w, .optionBearing⟩ text.data) ++
      yieldsOf (runMatcher ⟨buildWord w, .emptyShape⟩ text.data))).flatten

/-- The substring `text[a:b]` of Python slicing (for `0 ≤ a ≤ b`). -/
def sliceBetween (text : String) (a b : Nat) : List Char :=
  (text.data.drop a).take (b - a)

end Wikidump

namespace Wikidump

theorem toNat_ofNat_valid (n : Nat) (h : n < 55296) : (Char.ofNat n).toNat = n := by
  simp [Char.ofNat, Nat.isValidChar, h, Char.ofNatAux, Char.toNat, UInt32.toNat,
    BitVec.toNat_ofNatLt]

theorem pyLower_toNat (c : Char) :
    (pyLower c).toNat = if 65 ≤ c.toNat ∧ c.toNat ≤ 90 then c.toNat + 32 else c.toNat := by
  unfold pyLower
  split
  · next h => rw [toNat_ofNat_valid _ (by omega)]
  · next h => rfl

theorem char_eq_iff_toNat (c d : Char) : c = d ↔ c.toNat = d.toNat := by
  constructor
  · intro h; rw [h]
  · intro h
    exact Char.ext (UInt32.ext h)

theorem toNat_space : (' ' : Char).toNat = 32 := rfl

theorem toNat_tab : ('\t' : Char).toNat = 9 := rfl

theorem toNat_nl : ('\n' : Char).toNat = 10 := rfl

theorem toNat_vt : ('\x0b' : Char).toNat = 11 := rfl

theorem toNat_ff : ('\x0c' : Char).toNat = 12 := rfl

theorem toNat_cr : ('\r' : Char).toNat = 13 := rfl

theorem toNat_und : ('_' : Char).toNat = 95 := rfl

theorem toNat_obrace : ('\x7b' : Char).toNat = 123 := rfl

theorem toNat_pipe : ('|' : Char).toNat = 124 := rfl

theorem toNat_cbrace : ('\x7d' : Char).toNat = 125 := rfl

theorem plainChar_iff (c : Char) :
    plainChar c = true ↔
      (97 ≤ c.toNat ∧ c.toNat ≤ 122) ∨ (65 ≤ c.toNat ∧ c.toNat ≤ 90) ∨
        (48 ≤ c.toNat ∧ c.toNat ≤ 57) := by
  simp only [plainChar, Bool.or_eq_true, Bool.and_eq_true, decide_eq_true_eq]
  tauto

theorem pyLower_toNat_of_plain (c : Char) (h : plainChar c = true) :
    (97 ≤ (pyLower c).toNat ∧ (pyLower c).toNat ≤ 122) ∨
      (48 ≤ (pyLower c).toNat ∧ (pyLower c).toNat ≤ 57) := by
  have hr := (plainChar_iff c).mp h
  rw [pyLower_toNat]
  split <;> omega

theorem plain_not_spaceUnd (c : Char) (h : plainChar c = true) : spaceUnd c = false := by
  have hr := (plainChar_iff c).mp h
  simp only [spaceUnd, pySpace, Bool.or_eq_false_iff, decide_eq_false_iff_not,
    char_eq_iff_toNat, toNat_space, toNat_tab, toNat_nl, toNat_cr, toNat_vt, toNat_ff,
    toNat_und]
  omega

theorem plain_ne_obrace (c : Char) (h : plainChar c = true) : c ≠ '\x7b' := by
  have hr := (plainChar_iff c).mp h
  simp only [ne_eq, char_eq_iff_toNat, toNat_obrace]
  omega

theorem plain_ne_pipe (c : Char) (h : plainChar c = true) : c ≠ '|' := by
  have hr := (plainChar_iff c).mp h
  simp only [ne_eq, char_eq_iff_toNat, toNat_pipe]
  omega

theorem plain_ne_cbrace (c : Char) (h : plainChar c = true) : c ≠ '\x7d' := by
  have hr := (plainChar_iff c).mp h
  simp only [ne_eq, char_eq_iff_toNat, toNat_cbrace]
  omega

theorem pyLower_plain_ne_pipe (c : Char) (h : plainChar c = true) : pyLower c ≠ '|' := by
  have hr := pyLower_toNat_of_plain c h
  simp only [ne_eq, char_eq_iff_toNat, toNat_pipe]
  omega

theorem pyLower_plain_ne_cbrace (c : Char) (h : plainChar c = true) : pyLower c ≠ '\x7d' := by
  have hr := pyLower_toNat_of_plain c h
  simp only [ne_eq, char_eq_iff_toNat, toNat_cbrace]
  omega

theorem pyLower_plain_ne_space (c : Char) (h : plainChar c = true) : pyLower c ≠ ' ' := by
  have hr := pyLower_toNat_of_plain c h
  simp only [ne_eq, char_eq_iff_toNat, toNat_space]
  omega

theorem plain_not_pySpace (c : Char) (h : plainChar c = true) : pySpace c = false := by
  have hr := (plainChar_iff c).mp h
  simp only [pySpace, Bool.or_eq_false_iff, decide_eq_false_iff_not,
    char_eq_iff_toNat, toNat_space, toNat_tab, toNat_nl, toNat_cr, toNat_vt, toNat_ff]
  omega

end Wikidump

namespace Wikidump

theorem matchLit_map_self (u v : List Char) :
    matchLit (u.map pyLower) (u ++ v) = some (u, v) := by
  induction u with
  | nil => rfl
  | cons c u ih => simp [matchLit, ih]

theorem matchLit_eq_some_iff (w : List Char) :
    ∀ (s m r : List Char), matchLit w s = some (m, r) ↔
      w.length ≤ s.length ∧ m = s.take w.length ∧ r = s.drop w.length ∧
        (s.take w.length).map pyLower = w := by
  induction w with
  | nil =>
    intro s m r
    simp only [matchLit, Option.some.injEq, Prod.mk.injEq, List.length_nil, Nat.zero_le,
      List.take_zero, List.drop_zero, List.map_nil, true_and, and_true]
    constructor
    · rintro ⟨h1, h2⟩; exact ⟨h1.symm, h2.symm⟩
    · rintro ⟨h1, h2⟩; exact ⟨h1.symm, h2.symm⟩
  | cons c w ih =>
    intro s m r
    cases s with
    | nil =>
      simp [matchLit]
    | cons d s =>
      simp only [matchLit]
      by_cases hc : pyLower d = c
      · rw [if_pos hc]
        simp only [List.length_cons, List.take_succ_cons, List.drop_succ_cons, List.map_cons]
        constructor
        · intro h
          obtain ⟨⟨m', r'⟩, hm', heq⟩ := Option.map_eq_some'.mp h
          obtain ⟨h1, h2, h3, h4⟩ := (ih s m' r').mp hm'
          obtain ⟨hm, hr⟩ := Prod.mk.injEq .. ▸ heq
          subst hm hr
          refine ⟨Nat.succ_le_succ h1, by rw [h2], h3, ?_⟩
          rw [h4, hc]
        · rintro ⟨h1, h2, h3, h4⟩
          have h4' : (s.take w.length).map pyLower = w := by
            have := List.cons.injEq .. ▸ h4
            exact this.2
          have := (ih (s) (s.take w.length) (s.drop w.length)).mpr
            ⟨Nat.le_of_succ_le_succ h1, rfl, rfl, h4'⟩
          rw [this]
          simp only [Option.map_some']
          rw [h2, h3]
      · rw [if_neg hc]
        constructor
        · intro h; exact absurd h (by simp)
        · rintro ⟨h1, h2, h3, h4⟩
          rw [List.length_cons, List.take_succ_cons, List.map_cons] at h4
          have := (List.cons.injEq .. ▸ h4).1
          exact absurd this hc

theorem matchLit_some_decomp (w s m r : List Char) (h : matchLit w s = some (m, r)) :
    s = m ++ r ∧ m.map pyLower = w := by
  obtain ⟨h1, h2, h3, h4⟩ := (matchLit_eq_some_iff w s m r).mp h
  subst h2 h3
  exact ⟨(List.take_append_drop _ s).symm, h4⟩

theorem lastCloseSplit_some (s : List Char) :
    ∀ o r, lastCloseSplit s = some (o, r) →
      s = o ++ '\x7d' :: '\x7d' :: r ∧ '\x7b' ∉ o := by
  induction s with
  | nil => intro o r h; exact absurd h (by simp [lastCloseSplit])
  | cons c s ih =>
    intro o r h
    simp only [lastCloseSplit] at h
    split at h
    · exact absurd h (by simp)
    · next hc =>
      split at h
      · next o' r' hrec =>
        obtain ⟨ho, hr⟩ := Prod.mk.injEq .. ▸ (Option.some.injEq .. ▸ h)
        subst ho hr
        obtain ⟨h1, h2⟩ := ih _ _ hrec
        constructor
        · rw [h1]; rfl
        · intro hmem
          rcases List.mem_cons.mp hmem with hmem | hmem
          · exact hc hmem.symm
          · exact h2 hmem
      · split at h
        · next hd =>
          split at h
          · next d r' =>
            split at h
            · next hdd =>
              obtain ⟨ho, hr⟩ := Prod.mk.injEq .. ▸ (Option.some.injEq .. ▸ h)
              subst ho hr
              subst hd hdd
              exact ⟨rfl, by simp⟩
            · exact absurd h (by simp)
          · exact absurd h (by simp)
        · exact absurd h (by simp)

end Wikidump

namespace Wikidump

theorem matchAtOpt_some_decomp (w s mt ty op rest : List Char)
    (h : matchAtOpt w s = some (mt, ty, op, rest)) :
    s = mt ++ rest ∧ (∃ mid, mt = '\x7b' :: '\x7b' :: (mid ++ ['\x7d', '\x7d'])) ∧
      ty.map pyLower = w := by
  unfold matchAtOpt at h
  split at h
  · next a b s1 =>
    split at h
    · next hab =>
      obtain ⟨ha, hb⟩ := hab
      subst ha hb
      split at h
      · exact absurd h (by simp)
      · next ty' s3 hlit =>
        split at h
        · next c s5 hdw =>
          split at h
          · next hc =>
            subst hc
            split at h
            · exact absurd h (by simp)
            · next op' rest' hlcs =>
              simp only [Option.some.injEq, Prod.mk.injEq] at h
              obtain ⟨e1, e2, e3, e4⟩ := h
              subst e1 e2 e3 e4
              obtain ⟨hs1, hty⟩ := matchLit_some_decomp _ _ _ _ hlit
              obtain ⟨hs5, _⟩ := lastCloseSplit_some _ _ _ hlcs
              refine ⟨?_, ⟨s1.takeWhile spaceUnd ++ ty' ++ s3.takeWhile spaceUnd ++
                '|' :: op', by simp⟩, hty⟩
              have h1 : s1 = s1.takeWhile spaceUnd ++ (ty' ++ s3) := by
                rw [← hs1, List.takeWhile_append_dropWhile]
              have h2 : s3 = s3.takeWhile spaceUnd ++ ('|' :: s5) := by
                rw [← hdw, List.takeWhile_append_dropWhile]
              rw [hs5] at h2
              conv_lhs => rw [h1, h2]
              simp
          · exact absurd h (by simp)
        · exact absurd h (by simp)
    · exact absurd h (by simp)
  · exact absurd h (by simp)

theorem matchAtEmpty_some_decomp (w s mt ty op rest : List Char)
    (h : matchAtEmpty w s = some (mt, ty, op, rest)) :
    s = mt ++ rest ∧ (∃ mid, mt = '\x7b' :: '\x7b' :: (mid ++ ['\x7d', '\x7d'])) ∧
      ty.map pyLower = w := by
  unfold matchAtEmpty at h
  split at h
  · next a b s1 =>
    split at h
    · next hab =>
      obtain ⟨ha, hb⟩ := hab
      subst ha hb
      split at h
      · exact absurd h (by simp)
      · next ty' s3 hlit =>
        split at h
        · next c d rest' hdw =>
          split at h
          · next hcd =>
            obtain ⟨hc, hd⟩ := hcd
            subst hc hd
            simp only [Option.some.injEq, Prod.mk.injEq] at h
            obtain ⟨e1, e2, e3, e4⟩ := h
            subst e1 e2 e3 e4
            obtain ⟨hs1, hty⟩ := matchLit_some_decomp _ _ _ _ hlit
            refine ⟨?_, ⟨s1.takeWhile spaceUnd ++ ty' ++ s3.takeWhile spaceUnd, by simp⟩, hty⟩
            have h1 : s1 = s1.takeWhile spaceUnd ++ (ty' ++ s3) := by
              rw [← hs1, List.takeWhile_append_dropWhile]
            have h2 : s3 = s3.takeWhile spaceUnd ++ ('\x7d' :: '\x7d' :: rest') := by
              rw [← hdw, List.takeWhile_append_dropWhile]
            conv_lhs => rw [h1, h2]
            simp
          · exact absurd h (by simp)
        · exact absurd h (by simp)
    · exact absurd h (by simp)
  · exact absurd h (by simp)

theorem matchAt_some_decomp (m : Matcher) (s mt ty op rest : List Char)
    (h : matchAt m s = some (mt, ty, op, rest)) :
    s = mt ++ rest ∧ (∃ mid, mt = '\x7b' :: '\x7b' :: (mid ++ ['\x7d', '\x7d'])) ∧
      ty.map pyLower = m.word := by
  unfold matchAt at h
  split at h
  · exact matchAtOpt_some_decomp _ _ _ _ _ _ h
  · exact matchAtEmpty_some_decomp _ _ _ _ _ _ h

theorem matchAt_nil (m : Matcher) : matchAt m [] = none := by
  cases m with
  | mk w sh => cases sh <;> rfl

theorem matchAt_single (m : Matcher) (c : Char) : matchAt m [c] = none := by
  cases m with
  | mk w sh => cases sh <;> rfl

theorem matchAt_not_obrace (m : Matcher) (c : Char) (s : List Char) (h : c ≠ '\x7b') :
    matchAt m (c :: s) = none := by
  cases s with
  | nil => exact matchAt_single m c
  | cons d s' =>
    cases m with
    | mk w sh =>
      cases sh <;>
        simp [matchAt, matchAtOpt, matchAtEmpty, h]

theorem matchAt_not_obrace_second (m : Matcher) (c : Char) (s : List Char) (h : c ≠ '\x7b') :
    matchAt m ('\x7b' :: c :: s) = none := by
  cases m with
  | mk w sh =>
    cases sh <;>
      simp [matchAt, matchAtOpt, matchAtEmpty, h]

theorem scanAux_skip_ge (m : Matcher) :
    ∀ (s : List Char) (pos skip : Nat), s.length ≤ skip → scanAux m s pos skip = [] := by
  intro s
  induction s with
  | nil => intro pos skip _; rfl
  | cons c s ih =>
    intro pos skip hle
    cases skip with
    | zero => simp at hle
    | succ k =>
      simp only [scanAux]
      exact ih (pos + 1) k (by simpa using hle)

theorem scanAux_start_ge (m : Matcher) :
    ∀ (s : List Char) (pos skip : Nat) (r : RawMatch),
      r ∈ scanAux m s pos skip → pos + skip ≤ r.span.1 := by
  intro s
  induction s with
  | nil => intro pos skip r h; exact absurd h (by simp [scanAux])
  | cons c s ih =>
    intro pos skip r h
    cases skip with
    | succ k =>
      simp only [scanAux] at h
      have := ih (pos + 1) k r h
      omega
    | zero =>
      simp only [scanAux] at h
      split at h
      · next mt ty op rest _ =>
        rcases List.mem_cons.mp h with h | h
        · subst h; simp
        · have := ih (pos + 1) (mt.length - 1) r h
          omega
      · have := ih (pos + 1) 0 r h
        omega

theorem scanAux_sorted (m : Matcher) :
    ∀ (s : List Char) (pos skip : Nat),
      (scanAux m s pos skip).Pairwise (fun a b => a.span.1 < b.span.1) := by
  intro s
  induction s with
  | nil => intro pos skip; simp [scanAux]
  | cons c s ih =>
    intro pos skip
    cases skip with
    | succ k => simpa only [scanAux] using ih (pos + 1) k
    | zero =>
      simp only [scanAux]
      split
      · next mt ty op rest _ =>
        refine List.Pairwise.cons ?_ (ih (pos + 1) (mt.length - 1))
        intro r hr
        have := scanAux_start_ge m s (pos + 1) (mt.length - 1) r hr
        simp only
        omega
      · exact ih (pos + 1) 0

theorem scanAux_mem_decomp (m : Matcher) :
    ∀ (s : List Char) (pos skip : Nat) (text : List Char), text.drop pos = s →
      ∀ r ∈ scanAux m s pos skip, ∃ mt ty op rest,
        matchAt m (text.drop r.span.1) = some (mt, ty, op, rest) ∧
        r.span.2 = r.span.1 + mt.length ∧
        r.groups = [("type", ⟨ty⟩), ("options", ⟨op⟩)] := by
  intro s
  induction s with
  | nil => intro pos skip text _ r h; exact absurd h (by simp [scanAux])
  | cons c s ih =>
    intro pos skip text hdrop r h
    have hdrop' : text.drop (pos + 1) = s := by
      rw [← List.tail_drop, hdrop, List.tail_cons]
    cases skip with
    | succ k =>
      simp only [scanAux] at h
      exact ih (pos + 1) k text hdrop' r h
    | zero =>
      simp only [scanAux] at h
      split at h
      · next mt ty op rest hma =>
        rcases List.mem_cons.mp h with h | h
        · subst h
          exact ⟨mt, ty, op, rest, by rw [hdrop]; exact hma, rfl, rfl⟩
        · exact ih (pos + 1) (mt.length - 1) text hdrop' r h
      · exact ih (pos + 1) 0 text hdrop' r h

theorem scanAux_eq_nil_of_no_match (m : Matcher) :
    ∀ (s : List Char) (pos : Nat), (∀ t, t <:+ s → matchAt m t = none) →
      scanAux m s pos 0 = [] := by
  intro s
  induction s with
  | nil => intro pos _; rfl
  | cons c s ih =>
    intro pos h
    simp only [scanAux]
    rw [h (c :: s) (by exact List.suffix_refl _)]
    exact ih (pos + 1) (fun t ht => h t (ht.trans (List.suffix_cons c s)))

theorem consume_mem (l : List RawMatch) :
    ∀ r ∈ (consume l).1, ∃ raw ∈ l, handleMatch raw = .yield r := by
  induction l with
  | nil => intro r h; exact absurd h (by simp [consume])
  | cons m ms ih =>
    intro r h
    simp only [consume] at h
    split at h
    · next r' hm =>
      rcases List.mem_cons.mp h with h | h
      · subst h; exact ⟨m, List.mem_cons_self .., hm⟩
      · obtain ⟨raw, hraw, hy⟩ := ih r h
        exact ⟨raw, List.mem_cons_of_mem _ hraw, hy⟩
    · next hm =>
      obtain ⟨raw, hraw, hy⟩ := ih r h
      exact ⟨raw, List.mem_cons_of_mem _ hraw, hy⟩
    · next hm => exact absurd h (by simp)

theorem consume_no_abort (l : List RawMatch) (h : ∀ raw ∈ l, handleMatch raw ≠ .abort) :
    consume l = (yieldsOf l, none) := by
  induction l with
  | nil => rfl
  | cons m ms ih =>
    have hm : handleMatch m ≠ .abort := h m (List.mem_cons_self ..)
    have ih' := ih (fun raw hraw => h raw (List.mem_cons_of_mem _ hraw))
    cases hy : handleMatch m with
    | yield r' =>
      simp only [consume, hy, ih']
      simp [yieldsOf, List.filterMap_cons, hy]
    | skip =>
      simp only [consume, hy, ih']
      simp [yieldsOf, List.filterMap_cons, hy]
    | abort => exact absurd hy hm

theorem go_mem (text : List Char) :
    ∀ (mrs : List Matcher) (r : CaptureResult Wikibreak),
      r ∈ (wikibreaks_extractor_go mrs text).1 →
      ∃ m ∈ mrs, r ∈ (consume (runMatcher m text)).1 := by
  intro mrs
  induction mrs with
  | nil => intro r h; exact absurd h (by simp [wikibreaks_extractor_go])
  | cons mr rest ih =>
    intro r h
    simp only [wikibreaks_extractor_go] at h
    split at h
    · next rs bad hcs =>
      exact ⟨mr, List.mem_cons_self .., by rw [hcs]; exact h⟩
    · next rs hcs =>
      simp only at h
      rcases List.mem_append.mp h with h | h
      · exact ⟨mr, List.mem_cons_self .., by rw [hcs]; exact h⟩
      · obtain ⟨m, hm, hr⟩ := ih r h
        exact ⟨m, List.mem_cons_of_mem _ hm, hr⟩

theorem go_eq_of_no_abort (text : List Char) :
    ∀ (mrs : List Matcher),
      (∀ m ∈ mrs, (consume (runMatcher m text)).2 = none) →
      wikibreaks_extractor_go mrs text =
        ((mrs.map (fun m => (consume (runMatcher m text)).1)).flatten, []) := by
  intro mrs
  induction mrs with
  | nil => intro _; rfl
  | cons mr rest ih =>
    intro h
    have hmr := h mr (List.mem_cons_self ..)
    have ih' := ih (fun m hm => h m (List.mem_cons_of_mem _ hm))
    simp only [wikibreaks_extractor_go]
    split
    · next rs bad hcs => rw [hcs] at hmr; exact absurd hmr (by simp)
    · next rs hcs =>
      rw [ih']
      simp only [List.map_cons, List.flatten_cons]
      rw [hcs]

theorem go_no_warn_flatten (text : List Char) (mrs : List Matcher)
    (h : (wikibreaks_extractor_go mrs text).2 = []) :
    (wikibreaks_extractor_go mrs text).1 =
      (mrs.map (fun m => (consume (runMatcher m text)).1)).flatten := by
  induction mrs with
  | nil => rfl
  | cons mr rest ih =>
    simp only [wikibreaks_extractor_go] at h ⊢
    split at h
    · next rs bad hcs => exact absurd h (by simp)
    · next rs hcs =>
      simp only at h ⊢
      simp only [List.map_cons, List.flatten_cons, hcs]
      rw [ih h]

theorem pyLower_plain_not_pySpace (c : Char) (h : plainChar c = true) :
    pySpace (pyLower c) = false := by
  have hr := pyLower_toNat_of_plain c h
  simp only [pySpace, Bool.or_eq_false_iff, decide_eq_false_iff_not,
    char_eq_iff_toNat, toNat_space, toNat_tab, toNat_nl, toNat_cr, toNat_vt, toNat_ff]
  omega

theorem plainWord_mem (w : String) (h : plainWord w = true) :
    w.data ≠ [] ∧ ∀ c ∈ w.data, plainChar c = true := by
  simp only [plainWord, Bool.and_eq_true, Bool.not_eq_true', List.all_eq_true] at h
  obtain ⟨h1, h2⟩ := h
  refine ⟨?_, h2⟩
  intro hnil
  rw [hnil] at h1
  simp at h1

theorem buildWord_plain (w : String) (h : plainWord w = true) :
    buildWord w = w.data.map pyLower := by
  unfold buildWord
  apply List.filter_eq_self.mpr
  intro c hc
  obtain ⟨c0, hc0, rfl⟩ := List.mem_map.mp hc
  have hplain : plainChar c0 = true := (plainWord_mem w h).2 c0 hc0
  simp [pyLower_plain_not_pySpace c0 hplain]

theorem string_append_cancel_iff (h t a b : String) :
    h ++ a ++ t = h ++ b ++ t ↔ a = b := by
  constructor
  · intro heq
    have hd : (h ++ a ++ t).data = (h ++ b ++ t).data := congrArg String.data heq
    simp only [String.data_append, List.append_assoc] at hd
    have h1 := List.append_cancel_left hd
    have h2 := List.append_cancel_right h1
    cases a with
    | mk da =>
      cases b with
      | mk db => exact congrArg String.mk h2
  · intro heq; rw [heq]

theorem handleMatch_yield_inv (raw : RawMatch) (r : CaptureResult Wikibreak)
    (h : handleMatch raw = .yield r) :
    r.span = raw.span ∧ ∃ wiki_name, raw.group "type" = some wiki_name ∧ wiki_name ≠ "" ∧
      r.data.wikibreak_name = wiki_name ∧
      r.data.options = (match raw.group "options" with
        | none => []
        | some o => parse_options o) := by
  unfold handleMatch at h
  split at h
  · exact absurd h (by simp)
  · next wiki_name hty =>
    split at h
    · exact absurd h (by simp)
    · next hne =>
      simp only [MatchStep.yield.injEq] at h
      subst h
      exact ⟨rfl, wiki_name, hty, hne, rfl, rfl⟩

theorem consume_none_no_abort (l : List RawMatch) (h : (consume l).2 = none) :
    ∀ raw ∈ l, handleMatch raw ≠ .abort := by
  induction l with
  | nil => intro raw hraw; exact absurd hraw (by simp)
  | cons m ms ih =>
    intro raw hraw
    simp only [consume] at h
    split at h
    · next r' hm =>
      rcases List.mem_cons.mp hraw with hraw | hraw
      · subst hraw; simp [hm]
      · exact ih (by
          cases hcs : consume ms with
          | mk rs ab => rw [hcs] at h; simpa using h) raw hraw
    · next hm =>
      rcases List.mem_cons.mp hraw with hraw | hraw
      · subst hraw; simp [hm]
      · exact ih h raw hraw
    · next hm => exact absurd h (by simp)

theorem consume_some_abort (l : List RawMatch) :
    ∀ rs bad, consume l = (rs, some bad) → bad ∈ l ∧ handleMatch bad = .abort := by
  induction l with
  | nil => intro rs bad h; exact absurd h (by simp [consume])
  | cons m ms ih =>
    intro rs bad h
    simp only [consume] at h
    split at h
    · next r' hm =>
      cases hcs : consume ms with
      | mk rs' ab =>
        rw [hcs] at h
        simp only [Prod.mk.injEq] at h
        obtain ⟨h1, h2⟩ := h
        obtain ⟨hmem, habort⟩ := ih rs' bad (by rw [hcs, h2])
        exact ⟨List.mem_cons_of_mem _ hmem, habort⟩
    · next hm =>
      obtain ⟨hmem, habort⟩ := ih rs bad h
      exact ⟨List.mem_cons_of_mem _ hmem, habort⟩
    · next hm =>
      simp only [Prod.mk.injEq, Option.some.injEq] at h
      obtain ⟨h1, h2⟩ := h
      subst h2
      exact ⟨List.mem_cons_self .., hm⟩

theorem go_cons (mr : Matcher) (rest : List Matcher) (text : List Char) :
    wikibreaks_extractor_go (mr :: rest) text =
      match consume (runMatcher mr text) with
      | (rs, some bad) => (rs, [(mr, bad)])
      | (rs, none) =>
        (rs ++ (wikibreaks_extractor_go rest text).1,
          (wikibreaks_extractor_go rest text).2) := by
  cases hcs : consume (runMatcher mr text) with
  | mk rs ab =>
    simp only [wikibreaks_extractor_go, hcs]

theorem go_warn_mem (text : List Char) :
    ∀ (mrs : List Matcher) (mr : Matcher) (bad : RawMatch),
      (mr, bad) ∈ (wikibreaks_extractor_go mrs text).2 →
      (wikibreaks_extractor_go mrs text).2 = [(mr, bad)] ∧ handleMatch bad = .abort ∧
        bad ∈ runMatcher mr text ∧ mr ∈ mrs := by
  intro mrs
  induction mrs with
  | nil => simp [wikibreaks_extractor_go]
  | cons mr0 rest ih =>
    intro mr bad h
    rw [go_cons] at h ⊢
    cases hcs : consume (runMatcher mr0 text) with
    | mk rs ab =>
      rw [hcs] at h
      cases ab with
      | some bad' =>
        simp only [List.mem_singleton, Prod.mk.injEq] at h
        obtain ⟨h1, h2⟩ := h
        subst h1 h2
        obtain ⟨hmem, habort⟩ := consume_some_abort _ _ _ hcs
        exact ⟨rfl, habort, hmem, List.mem_cons_self ..⟩
      | none =>
        simp only at h ⊢
        obtain ⟨h1, h2, h3, h4⟩ := ih mr bad h
        exact ⟨h1, h2, h3, List.mem_cons_of_mem _ h4⟩

theorem go_no_warn_no_abort (text : List Char) :
    ∀ (mrs : List Matcher), (wikibreaks_extractor_go mrs text).2 = [] →
      ∀ m ∈ mrs, (consume (runMatcher m text)).2 = none := by
  intro mrs
  induction mrs with
  | nil => intro _ m hm; exact absurd hm (by simp)
  | cons mr rest ih =>
    intro h m hm
    simp only [wikibreaks_extractor_go] at h
    split at h
    · next rs bad hcs => exact absurd h (by simp)
    · next rs hcs =>
      simp only at h
      rcases List.mem_cons.mp hm with hm | hm
      · subst hm; rw [hcs]
      · exact ih h m hm

/-- C9: `wikibreaks_extractor` is deterministic — in this pure embedding the
whole extraction is a function of the configured vocabulary and the input
text alone (the compiled matcher set is immutable and the generator holds no
state across runs), so two runs over the same text produce equal result
sequences. -/
theorem wikibreaks_extractor_deterministic (voc : List String) (text : String) :
    wikibreaks_extractor voc text = wikibreaks_extractor voc text := rfl

/-- C3 counterexample: pattern construction does not escape the vocabulary
name before substitution — for the name `"a("` the pattern actually built
(line 120: `wikibreak_pattern % w.lower()`) differs from the pattern an
escaping build step would produce, embedding the metacharacter `(` verbatim. -/
theorem wikibreak_pattern_no_escaping_counterexample :
    wikibreak_pattern_built (lowerString "a(") ≠
      wikibreak_pattern_escaped_built (lowerString "a(") := by decide

/-- C3 (amended): the build step substitutes the lower-cased vocabulary name
verbatim into both templates; no escaping is applied and no
`ConfigurationError` (or any other build-time validation) exists — the
verbatim build agrees with an escaping build exactly for names that escaping
would leave unchanged. -/
theorem wikibreak_pattern_built_eq_escaped_iff (w : String) :
    (wikibreak_pattern_built w = wikibreak_pattern_escaped_built w ↔ re_escape w = w) ∧
    (wikibreak_empty_pattern_built w =
        wikibreak_pattern_head ++ re_escape w ++ wikibreak_empty_pattern_tail ↔
      re_escape w = w) := by
  constructor
  · exact string_append_cancel_iff wikibreak_pattern_head wikibreak_pattern_tail w (re_escape w) |>.trans ⟨Eq.symm, Eq.symm⟩ |>.symm |>.symm
  · exact string_append_cancel_iff wikibreak_pattern_head wikibreak_empty_pattern_tail w (re_escape w) |>.trans ⟨Eq.symm, Eq.symm⟩ |>.symm |>.symm

/-- C10: every compiled pattern of the matcher set defines both named groups
`type` and `options` (both group openers occur in every built pattern
string), and consequently `check_wikibreaks_presence` and `check_options`
return `True` on every match any matcher produces — their `IndexError`
fallback branches are unreachable and option parsing is attempted for every
yielded match. -/
theorem patterns_define_type_and_options_groups :
    (∀ w : String,
      definesGroup (wikibreak_pattern_built w) "type" ∧
      definesGroup (wikibreak_pattern_built w) "options" ∧
      definesGroup (wikibreak_empty_pattern_built w) "type" ∧
      definesGroup (wikibreak_empty_pattern_built w) "options") ∧
    (∀ (m : Matcher) (text : List Char) (raw : RawMatch), raw ∈ runMatcher m text →
      check_wikibreaks_presence raw = true ∧ check_options raw = true) := by
  constructor
  · intro w
    have hhead : wikibreak_pattern_head.data =
        ("\\\x7b\\\x7b(?:\\s|\\_)*" : String).data ++ ("(?P<" ++ "type" ++ ">").data := by
      decide
    have htail : wikibreak_pattern_tail.data =
        (")(?:\\s|\\_)*\\|" : String).data ++ ("(?P<" ++ "options" ++ ">").data ++
          ("[^\x7b]*)\\\x7d\\\x7d" : String).data := by
      decide
    have hetail : wikibreak_empty_pattern_tail.data =
        (")" : String).data ++ ("(?P<" ++ "options" ++ ">").data ++
          ("(?:\\s|\\_)*)\\\x7d\\\x7d" : String).data := by
      decide
    refine ⟨⟨("\\\x7b\\\x7b(?:\\s|\\_)*" : String).data,
        w.data ++ wikibreak_pattern_tail.data, ?_⟩,
      ⟨wikibreak_pattern_head.data ++ w.data ++ (")(?:\\s|\\_)*\\|" : String).data,
        ("[^\x7b]*)\\\x7d\\\x7d" : String).data, ?_⟩,
      ⟨("\\\x7b\\\x7b(?:\\s|\\_)*" : String).data,
        w.data ++ wikibreak_empty_pattern_tail.data, ?_⟩,
      ⟨wikibreak_pattern_head.data ++ w.data ++ (")" : String).data,
        ("(?:\\s|\\_)*)\\\x7d\\\x7d" : String).data, ?_⟩⟩
    · unfold wikibreak_pattern_built
      simp only [String.data_append, hhead, List.append_assoc]
    · unfold wikibreak_pattern_built
      simp only [String.data_append, htail, List.append_assoc]
    · unfold wikibreak_empty_pattern_built
      simp only [String.data_append, hhead, List.append_assoc]
    · unfold wikibreak_empty_pattern_built
      simp only [String.data_append, hetail, List.append_assoc]
  · intro m text raw hraw
    unfold runMatcher at hraw
    obtain ⟨mt, ty, op, rest, _, _, hgr⟩ :=
      scanAux_mem_decomp m text 0 0 text rfl raw hraw
    constructor
    · simp only [check_wikibreaks_presence, RawMatch.group, hgr]
      rfl
    · simp only [check_options, RawMatch.group, hgr]
      rfl

/-- C8: every yielded `CaptureResult` has a span with
`0 <= start < end <= len(text)`, and `text[start:end]` is exactly the text
matched by the producing compiled pattern — an anchored match of that
pattern at `start` consuming precisely the slice, which carries the
template's `\x7b\x7b` and `\x7d\x7d` delimiters. -/
theorem wikibreaks_extractor_span_sound (voc : List String) (text : String)
    (r : CaptureResult Wikibreak) (hr : r ∈ (wikibreaks_extractor voc text).1) :
    r.span.1 < r.span.2 ∧ r.span.2 ≤ text.length ∧
      ∃ m ∈ WIKIBREAKS_REs voc, ∃ ty op rest,
        matchAt m (text.data.drop r.span.1) =
          some (sliceBetween text r.span.1 r.span.2, ty, op, rest) ∧
        ∃ mid, sliceBetween text r.span.1 r.span.2 =
          '\x7b' :: '\x7b' :: (mid ++ ['\x7d', '\x7d']) := by
  obtain ⟨m, hm, hrc⟩ := go_mem text.data (WIKIBREAKS_REs voc) r hr
  obtain ⟨raw, hraw, hy⟩ := consume_mem _ r hrc
  obtain ⟨hspan, _⟩ := handleMatch_yield_inv raw r hy
  unfold runMatcher at hraw
  obtain ⟨mt, ty, op, rest, hma, hsp2, hgr⟩ :=
    scanAux_mem_decomp m text.data 0 0 text.data rfl raw hraw
  obtain ⟨hsplit, ⟨mid, hmid⟩, _⟩ := matchAt_some_decomp m _ _ _ _ _ hma
  have hmtpos : 0 < mt.length := by rw [hmid]; simp
  have hlt : raw.span.1 < text.data.length := by
    by_contra hcon
    push_neg at hcon
    have hnil : text.data.drop raw.span.1 = [] := List.drop_eq_nil_of_le hcon
    rw [hnil] at hsplit
    have := congrArg List.length hsplit
    simp at this
    omega
  have hlen := congrArg List.length hsplit
  rw [List.length_drop, List.length_append] at hlen
  have hle2 : raw.span.1 + mt.length ≤ text.data.length := by omega
  have hslice : sliceBetween text raw.span.1 raw.span.2 = mt := by
    unfold sliceBetween
    rw [hsp2, Nat.add_sub_cancel_left, hsplit]
    exact List.take_left mt rest
  have hlength : text.length = text.data.length := rfl
  rw [hspan]
  refine ⟨by omega, by omega, m, hm, ty, op, rest, ?_, mid, ?_⟩
  · rw [hslice]
    exact hma
  · rw [hslice]
    exact hmid

/-- C8 witness: the single span yielded for a concrete text satisfies the
span invariant. -/
theorem wikibreaks_extractor_span_sound_witness :
    (⟨⟨"retired", []⟩, (0, 11)⟩ : CaptureResult Wikibreak) ∈
        (wikibreaks_extractor ["retired"] "\x7b\x7bretired\x7d\x7d").1 ∧
      ((⟨⟨"retired", []⟩, (0, 11)⟩ : CaptureResult Wikibreak).span.1 <
          (⟨⟨"retired", []⟩, (0, 11)⟩ : CaptureResult Wikibreak).span.2 ∧
        (⟨⟨"retired", []⟩, (0, 11)⟩ : CaptureResult Wikibreak).span.2 ≤
          ("\x7b\x7bretired\x7d\x7d" : String).length ∧
        ∃ m ∈ WIKIBREAKS_REs ["retired"], ∃ ty op rest,
          matchAt m (("\x7b\x7bretired\x7d\x7d" : String).data.drop
              (⟨⟨"retired", []⟩, (0, 11)⟩ : CaptureResult Wikibreak).span.1) =
            some (sliceBetween "\x7b\x7bretired\x7d\x7d"
                (⟨⟨"retired", []⟩, (0, 11)⟩ : CaptureResult Wikibreak).span.1
                (⟨⟨"retired", []⟩, (0, 11)⟩ : CaptureResult Wikibreak).span.2,
              ty, op, rest) ∧
          ∃ mid, sliceBetween "\x7b\x7bretired\x7d\x7d"
              (⟨⟨"retired", []⟩, (0, 11)⟩ : CaptureResult Wikibreak).span.1
              (⟨⟨"retired", []⟩, (0, 11)⟩ : CaptureResult Wikibreak).span.2 =
            '\x7b' :: '\x7b' :: (mid ++ ['\x7d', '\x7d'])) :=
  ⟨by decide, wikibreaks_extractor_span_sound ["retired"] "\x7b\x7bretired\x7d\x7d"
    ⟨⟨"retired", []⟩, (0, 11)⟩ (by decide)⟩

/-- C1 counterexample: the extractor does not lower-case the yielded type
name — with vocabulary entry `"retired"`, the input `\x7b\x7bRETIRED\x7d\x7d`
yields `type_name = "RETIRED"` (the captured text, case preserved), not
`"retired"` as the claim states; the all-lower-case input does yield
`"retired"`. -/
theorem type_name_not_lowercased_counterexample :
    wikibreaks_extractor ["retired"] "\x7b\x7bRETIRED\x7d\x7d" =
      ([⟨⟨"RETIRED", []⟩, (0, 11)⟩], []) ∧
    ("RETIRED" : String) ≠ "retired" ∧
    wikibreaks_extractor ["retired"] "\x7b\x7bretired\x7d\x7d" =
      ([⟨⟨"retired", []⟩, (0, 11)⟩], []) := by
  exact ⟨by decide, by decide, by decide⟩

/-- C1 (amended): every yielded annotation's `type_name` equals, up to
lower-casing, a name of the configured vocabulary (for vocabularies of
alphanumeric names) — but it is not itself lower-cased: it is the matched
text with its original case. -/
theorem type_name_matches_vocab_up_to_case (voc : List String) (text : String)
    (hvoc : ∀ w ∈ voc, plainWord w = true) (r : CaptureResult Wikibreak)
    (hr : r ∈ (wikibreaks_extractor voc text).1) :
    ∃ W ∈ voc, lowerString r.data.wikibreak_name = lowerString W := by
  obtain ⟨m, hm, hrc⟩ := go_mem text.data (WIKIBREAKS_REs voc) r hr
  obtain ⟨raw, hraw, hy⟩ := consume_mem _ r hrc
  obtain ⟨hspan, wiki_name, hgty, hne, hname, hopts⟩ := handleMatch_yield_inv raw r hy
  unfold runMatcher at hraw
  obtain ⟨mt, ty, op, rest, hma, hsp2, hgr⟩ :=
    scanAux_mem_decomp m text.data 0 0 text.data rfl raw hraw
  obtain ⟨_, _, hword⟩ := matchAt_some_decomp m _ _ _ _ _ hma
  have hgty2 : raw.group "type" = some ⟨ty⟩ := by
    simp only [RawMatch.group, hgr]
    rfl
  rw [hgty2] at hgty
  have hwn : wiki_name = (⟨ty⟩ : String) := by
    injection hgty with h
    exact h.symm
  have hmword : ∃ W ∈ voc, m.word = buildWord W := by
    rcases List.mem_append.mp hm with hm' | hm'
    · obtain ⟨W, hW, hWm⟩ := List.mem_map.mp hm'
      exact ⟨W, hW, by rw [← hWm]⟩
    · obtain ⟨W, hW, hWm⟩ := List.mem_map.mp hm'
      exact ⟨W, hW, by rw [← hWm]⟩
  obtain ⟨W, hW, hWm⟩ := hmword
  refine ⟨W, hW, ?_⟩
  rw [hname, hwn]
  unfold lowerString
  have hbw := buildWord_plain W (hvoc W hW)
  have : ty.map pyLower = W.data.map pyLower := by
    rw [hword, hWm, hbw]
  rw [show ((⟨ty⟩ : String)).data = ty from rfl, this]

/-- C1 witness: the amended statement instantiated at the upper-case input. -/
theorem type_name_matches_vocab_up_to_case_witness :
    (∀ w ∈ ["retired"], plainWord w = true) ∧
    (⟨⟨"RETIRED", []⟩, (0, 11)⟩ : CaptureResult Wikibreak) ∈
        (wikibreaks_extractor ["retired"] "\x7b\x7bRETIRED\x7d\x7d").1 ∧
    ∃ W ∈ ["retired"],
      lowerString (⟨⟨"RETIRED", []⟩, (0, 11)⟩ : CaptureResult Wikibreak).data.wikibreak_name =
        lowerString W :=
  ⟨by decide, by decide,
    type_name_matches_vocab_up_to_case ["retired"] "\x7b\x7bRETIRED\x7d\x7d"
      (by decide) ⟨⟨"RETIRED", []⟩, (0, 11)⟩ (by decide)⟩

/-- C2 counterexample: an empty `type` capture does not stop just the one
matcher — the `return` terminates the whole generator.  With vocabulary
`["", "x"]` and text `\x7b\x7b\x7d\x7d\x7b\x7bx\x7d\x7d`, the
empty-shape matcher for `""` hits an empty capture: the extractor reports
one warning and yields nothing at all, although the still-unprocessed
empty-shape matcher for `"x"` (a member of the matcher set) finds a match
of its own that the claim says should still be yielded. -/
theorem abort_stops_all_matchers_counterexample :
    (wikibreaks_extractor ["", "x"] "\x7b\x7b\x7d\x7d\x7b\x7bx\x7d\x7d").1 = [] ∧
    (wikibreaks_extractor ["", "x"] "\x7b\x7b\x7d\x7d\x7b\x7bx\x7d\x7d").2 ≠ [] ∧
    (⟨buildWord "x", .emptyShape⟩ : Matcher) ∈ WIKIBREAKS_REs ["", "x"] ∧
    yieldsOf (runMatcher ⟨buildWord "x", .emptyShape⟩
        ("\x7b\x7b\x7d\x7d\x7b\x7bx\x7d\x7d" : String).data) =
      [⟨⟨"x", []⟩, (4, 9)⟩] := by
  exact ⟨by decide, by decide, by decide, by decide⟩

/-- C2 (amended): an empty `type` capture is reported as exactly one warning
and aborts the entire extraction (the aborting match comes from one
matcher's scan, and nothing after the abort is yielded — not even other
matchers' matches); only when no warning occurs does every matcher of the
set contribute all of its yielded matches. -/
theorem warning_aborts_whole_extraction (voc : List String) (text : String) :
    ((wikibreaks_extractor voc text).2 = [] →
      (wikibreaks_extractor voc text).1 =
        ((WIKIBREAKS_REs voc).map (fun m => yieldsOf (runMatcher m text.data))).flatten) ∧
    (∀ mr bad, (mr, bad) ∈ (wikibreaks_extractor voc text).2 →
      (wikibreaks_extractor voc text).2 = [(mr, bad)] ∧ handleMatch bad = .abort ∧
        bad ∈ runMatcher mr text.data ∧ mr ∈ WIKIBREAKS_REs voc) := by
  constructor
  · intro h
    have h2 := go_no_warn_no_abort text.data (WIKIBREAKS_REs voc) h
    have h3 := go_no_warn_flatten text.data (WIKIBREAKS_REs voc) h
    unfold wikibreaks_extractor at h3 ⊢
    rw [h3]
    congr 1
    apply List.map_congr_left
    intro m hm
    rw [consume_no_abort _ (consume_none_no_abort _ (h2 m hm))]
  · intro mr bad h
    exact go_warn_mem text.data (WIKIBREAKS_REs voc) mr bad h

/-- C2 witness: the amended statement at a warning-free input. -/
theorem warning_aborts_whole_extraction_witness :
    (wikibreaks_extractor ["retired"] "\x7b\x7bretired\x7d\x7d").2 = [] ∧
    (wikibreaks_extractor ["retired"] "\x7b\x7bretired\x7d\x7d").1 =
      ((WIKIBREAKS_REs ["retired"]).map
        (fun m => yieldsOf (runMatcher m ("\x7b\x7bretired\x7d\x7d" : String).data))).flatten :=
  ⟨by decide, (warning_aborts_whole_extraction ["retired"] "\x7b\x7bretired\x7d\x7d").1
    (by decide)⟩

/-- C4 counterexample: the overall iteration order is not "for each
vocabulary entry, its option-bearing matches then its empty matches": with
vocabulary `["aa", "bb"]` and text
`\x7b\x7baa\x7d\x7d\x7b\x7bbb|x\x7d\x7d` (no warning involved) the
extractor yields `bb`'s option-bearing match before `aa`'s empty match,
while the claimed per-entry order lists `aa`'s empty match first. -/
theorem iteration_order_counterexample :
    (wikibreaks_extractor ["aa", "bb"] "\x7b\x7baa\x7d\x7d\x7b\x7bbb|x\x7d\x7d").1 ≠
      claimed_entry_order ["aa", "bb"] "\x7b\x7baa\x7d\x7d\x7b\x7bbb|x\x7d\x7d" ∧
    (wikibreaks_extractor ["aa", "bb"] "\x7b\x7baa\x7d\x7d\x7b\x7bbb|x\x7d\x7d").2 = [] := by
  exact ⟨by decide, by decide⟩

/-- C4 (amended): within one matcher's scan, matches are produced in
strictly increasing order of start offset; and (absent a warning) the
overall iteration order is all option-bearing matchers in vocabulary order,
then all empty-shape matchers in vocabulary order — not per-entry pairs. -/
theorem iteration_order (voc : List String) (text : String) :
    (∀ m : Matcher,
      (runMatcher m text.data).Pairwise (fun a b => a.span.1 < b.span.1)) ∧
    ((wikibreaks_extractor voc text).2 = [] →
      (wikibreaks_extractor voc text).1 =
        ((WIKIBREAKS_PATTERN_REs voc).map
            (fun m => yieldsOf (runMatcher m text.data))).flatten ++
          ((WIKIBREAKS_EMPTY_PATTERN_REs voc).map
            (fun m => yieldsOf (runMatcher m text.data))).flatten) := by
  constructor
  · intro m
    unfold runMatcher
    exact scanAux_sorted m text.data 0 0
  · intro h
    have h1 := (warning_aborts_whole_extraction voc text).1 h
    rw [h1]
    unfold WIKIBREAKS_REs
    rw [List.map_append, List.flatten_append]

/-- C4 witness: the amended statement at a concrete vocabulary and text. -/
theorem iteration_order_witness :
    (runMatcher ⟨buildWord "aa", .optionBearing⟩
        ("\x7b\x7baa\x7d\x7d\x7b\x7bbb|x\x7d\x7d" : String).data).Pairwise
      (fun a b => a.span.1 < b.span.1) ∧
    ((wikibreaks_extractor ["aa", "bb"] "\x7b\x7baa\x7d\x7d\x7b\x7bbb|x\x7d\x7d").2 = [] ∧
      (wikibreaks_extractor ["aa", "bb"] "\x7b\x7baa\x7d\x7d\x7b\x7bbb|x\x7d\x7d").1 =
        ((WIKIBREAKS_PATTERN_REs ["aa", "bb"]).map
            (fun m => yieldsOf (runMatcher m
              ("\x7b\x7baa\x7d\x7d\x7b\x7bbb|x\x7d\x7d" : String).data))).flatten ++
          ((WIKIBREAKS_EMPTY_PATTERN_REs ["aa", "bb"]).map
            (fun m => yieldsOf (runMatcher m
              ("\x7b\x7baa\x7d\x7d\x7b\x7bbb|x\x7d\x7d" : String).data))).flatten) :=
  ⟨(iteration_order ["aa", "bb"] "\x7b\x7baa\x7d\x7d\x7b\x7bbb|x\x7d\x7d").1 _,
    by decide,
    (iteration_order ["aa", "bb"] "\x7b\x7baa\x7d\x7d\x7b\x7bbb|x\x7d\x7d").2
      (by decide)⟩

/-- C7: option normalization is exactly trim-of-the-whole-capture, then
underscore deletion, then pipe split (with the single-empty-segment
collapse): the full extractor turns `\x7b\x7bt_|_back_=_yes_\x7d\x7d` into
the single option `"back=yes"`; on an underscore-free, already-trimmed
capture the options are the verbatim pipe segments (interior whitespace,
including whitespace adjacent to an inner pipe, preserved); and the trim
happens before underscore deletion (`"_ a"` keeps its interior space). -/
theorem option_normalization_pipeline :
    (wikibreaks_extractor ["t"] "\x7b\x7bt_|_back_=_yes_\x7d\x7d" =
      ([⟨⟨"t", ["back=yes"]⟩, (0, 19)⟩], [])) ∧
    (∀ raw : String, '_' ∉ raw.data → pyStripL raw.data = raw.data →
      parse_options raw =
        if splitPipe raw.data = [[]] then []
        else (splitPipe raw.data).map (fun l => ⟨l⟩)) ∧
    (parse_options "_ a" = [" a"]) := by
  refine ⟨by decide, ?_, by decide⟩
  intro raw hund hstrip
  unfold parse_options
  rw [hstrip, List.filter_eq_self.mpr]
  intro c hc
  simp only [bne_iff_ne, ne_eq, decide_eq_true_eq]
  intro hceq
  exact hund (hceq ▸ hc)

/-- C7 witness: verbatim per-segment preservation at a concrete capture. -/
theorem option_normalization_pipeline_witness :
    ('_' ∉ ("a | b" : String).data) ∧ pyStripL ("a | b" : String).data = ("a | b" : String).data ∧
      parse_options "a | b" =
        (if splitPipe ("a | b" : String).data = [[]] then []
          else (splitPipe ("a | b" : String).data).map (fun l => ⟨l⟩)) :=
  ⟨by decide, by decide,
    (option_normalization_pipeline).2.1 "a | b" (by decide) (by decide)⟩

/-- C10 witness: both checks hold on a concretely produced match. -/
theorem patterns_define_type_and_options_groups_witness :
    (⟨(0, 11), [("type", "retired"), ("options", "")]⟩ : RawMatch) ∈
        runMatcher ⟨buildWord "retired", .emptyShape⟩
          ("\x7b\x7bretired\x7d\x7d" : String).data ∧
      check_wikibreaks_presence
          (⟨(0, 11), [("type", "retired"), ("options", "")]⟩ : RawMatch) = true ∧
        check_options (⟨(0, 11), [("type", "retired"), ("options", "")]⟩ : RawMatch) = true :=
  ⟨by decide,
    patterns_define_type_and_options_groups.2 ⟨buildWord "retired", .emptyShape⟩
      ("\x7b\x7bretired\x7d\x7d" : String).data
      ⟨(0, 11), [("type", "retired"), ("options", "")]⟩ (by decide)⟩

theorem takeWhile_dropWhile_plain (u v : List Char) (hu : u ≠ [])
    (hp : ∀ c ∈ u, plainChar c = true) :
    (u ++ v).takeWhile spaceUnd = [] ∧ (u ++ v).dropWhile spaceUnd = u ++ v := by
  cases u with
  | nil => exact absurd rfl hu
  | cons c u' =>
    have hc : spaceUnd c = false := plain_not_spaceUnd c (hp c (List.mem_cons_self ..))
    constructor
    · simp [List.takeWhile_cons, hc]
    · simp [List.dropWhile_cons, hc]

theorem blocked_ne_lowered (c d : Char)
    (hc : spaceUnd c = true ∨ c = '|' ∨ c = '\x7d')
    (hd : (97 ≤ d.toNat ∧ d.toNat ≤ 122) ∨ (48 ≤ d.toNat ∧ d.toNat ≤ 57)) :
    pyLower c ≠ d := by
  have hcn : (pyLower c).toNat = c.toNat := by
    rw [pyLower_toNat]
    have : ¬(65 ≤ c.toNat ∧ c.toNat ≤ 90) := by
      rcases hc with hc | hc | hc
      · simp only [spaceUnd, pySpace, Bool.or_eq_true, decide_eq_true_eq,
          char_eq_iff_toNat, toNat_space, toNat_tab, toNat_nl, toNat_cr, toNat_vt,
          toNat_ff, toNat_und] at hc
        omega
      · rw [char_eq_iff_toNat, toNat_pipe] at hc
        omega
      · rw [char_eq_iff_toNat, toNat_cbrace] at hc
        omega
    rw [if_neg this]
  have hcv : c.toNat = 9 ∨ c.toNat = 10 ∨ c.toNat = 11 ∨ c.toNat = 12 ∨ c.toNat = 13 ∨
      c.toNat = 32 ∨ c.toNat = 95 ∨ c.toNat = 124 ∨ c.toNat = 125 := by
    rcases hc with hc | hc | hc
    · simp only [spaceUnd, pySpace, Bool.or_eq_true, decide_eq_true_eq,
        char_eq_iff_toNat, toNat_space, toNat_tab, toNat_nl, toNat_cr, toNat_vt,
        toNat_ff, toNat_und] at hc
      omega
    · rw [char_eq_iff_toNat, toNat_pipe] at hc
      omega
    · rw [char_eq_iff_toNat, toNat_cbrace] at hc
      omega
  rw [ne_eq, char_eq_iff_toNat, hcn]
  omega

theorem matchAtOpt_plain_eq (u v : List Char) (hu : u ≠ [])
    (hp : ∀ c ∈ u, plainChar c = true) :
    matchAtOpt (u.map pyLower) ('\x7b' :: '\x7b' :: (u ++ v)) =
      match v.dropWhile spaceUnd with
      | c :: s5 =>
        if c = '|' then
          match lastCloseSplit s5 with
          | none => none
          | some (op, rest) =>
            some ('\x7b' :: '\x7b' ::
                ([] ++ u ++ v.takeWhile spaceUnd ++ '|' :: (op ++ ['\x7d', '\x7d'])),
              u, op, rest)
        else none
      | [] => none := by
  obtain ⟨htw, hdw⟩ := takeWhile_dropWhile_plain u v hu hp
  simp only [matchAtOpt, and_self, if_true, htw, hdw, matchLit_map_self]

theorem matchAtEmpty_plain_eq (u v : List Char) (hu : u ≠ [])
    (hp : ∀ c ∈ u, plainChar c = true) :
    matchAtEmpty (u.map pyLower) ('\x7b' :: '\x7b' :: (u ++ v)) =
      match v.dropWhile spaceUnd with
      | c :: d :: rest =>
        if c = '\x7d' ∧ d = '\x7d' then
          some ('\x7b' :: '\x7b' :: ([] ++ u ++ v.takeWhile spaceUnd ++ ['\x7d', '\x7d']),
            u, v.takeWhile spaceUnd, rest)
        else none
      | _ => none := by
  obtain ⟨htw, hdw⟩ := takeWhile_dropWhile_plain u v hu hp
  simp only [matchAtEmpty, and_self, if_true, htw, hdw, matchLit_map_self]

theorem matchLit_plain_cases (w u v : List Char) (_hu : u ≠ [])
    (_hpu : ∀ c ∈ u, plainChar c = true)
    (hw : ∀ c ∈ w, (97 ≤ c.toNat ∧ c.toNat ≤ 122) ∨ (48 ≤ c.toNat ∧ c.toNat ≤ 57))
    (hv : ∀ c, v.head? = some c → spaceUnd c = true ∨ c = '|' ∨ c = '\x7d')
    (hne : w ≠ u.map pyLower) :
    matchLit w (u ++ v) = none ∨
      ∃ u2, matchLit w (u ++ v) = some (u.take w.length, u2 ++ v) ∧
        u2 = u.drop w.length ∧ u2 ≠ [] := by
  cases hml : matchLit w (u ++ v) with
  | none => exact Or.inl rfl
  | some p =>
    rcases p with ⟨m, r⟩
    obtain ⟨hlen, hm, hr, hmap⟩ := (matchLit_eq_some_iff w (u ++ v) m r).mp hml
    rcases Nat.lt_trichotomy w.length u.length with hlt | heq | hgt
    · right
      refine ⟨u.drop w.length, ?_, rfl, ?_⟩
      · subst hm hr
        rw [List.take_append_eq_append_take, List.drop_append_eq_append_drop,
          Nat.sub_eq_zero_of_le (Nat.le_of_lt hlt)]
        simp
      · intro hnil
        have := congrArg List.length hnil
        simp at this
        omega
    · exfalso
      apply hne
      rw [← hmap]
      congr 1
      rw [heq]
      exact List.take_left u v
    · exfalso
      cases hv0 : v with
      | nil =>
        rw [hv0] at hlen
        simp at hlen
        omega
      | cons c v2 =>
        have hblocked := hv c (by rw [hv0]; rfl)
        obtain ⟨k, hk⟩ : ∃ k, w.length - u.length = k + 1 :=
          ⟨w.length - u.length - 1, by omega⟩
        have htake : (u ++ v).take w.length = u ++ c :: v2.take k := by
          rw [hv0, List.take_append_eq_append_take,
            List.take_of_length_le (Nat.le_of_lt hgt), hk, List.take_succ_cons]
        have hmem : pyLower c ∈ w := by
          rw [← hmap, htake, List.map_append, List.map_cons]
          exact List.mem_append_right _ (List.mem_cons_self ..)
        exact blocked_ne_lowered c (pyLower c) hblocked (hw _ hmem) rfl

theorem matchAtOpt_plain_ne (w u v : List Char) (hu : u ≠ [])
    (hpu : ∀ c ∈ u, plainChar c = true)
    (hw : ∀ c ∈ w, (97 ≤ c.toNat ∧ c.toNat ≤ 122) ∨ (48 ≤ c.toNat ∧ c.toNat ≤ 57))
    (hv : ∀ c, v.head? = some c → spaceUnd c = true ∨ c = '|' ∨ c = '\x7d')
    (hne : w ≠ u.map pyLower) :
    matchAtOpt w ('\x7b' :: '\x7b' :: (u ++ v)) = none := by
  obtain ⟨htw, hdw⟩ := takeWhile_dropWhile_plain u v hu hpu
  rcases matchLit_plain_cases w u v hu hpu hw hv hne with hml | ⟨u2, hml, hu2, hne2⟩
  · simp only [matchAtOpt, and_self, if_true, hdw, hml]
  · have hpu2 : ∀ c ∈ u2, plainChar c = true := by
      intro c hc
      rw [hu2] at hc
      exact hpu c (List.mem_of_mem_drop hc)
    obtain ⟨c0, u2', rfl⟩ := List.exists_cons_of_ne_nil hne2
    have hp0 : plainChar c0 = true := hpu2 c0 (List.mem_cons_self ..)
    have hsp0 : spaceUnd c0 = false := plain_not_spaceUnd c0 hp0
    simp only [matchAtOpt, and_self, if_true, hdw, hml, List.cons_append,
      List.dropWhile_cons, hsp0, Bool.false_eq_true, if_false]
    rw [if_neg (plain_ne_pipe c0 hp0)]

theorem matchAtEmpty_plain_ne (w u v : List Char) (hu : u ≠ [])
    (hpu : ∀ c ∈ u, plainChar c = true)
    (hw : ∀ c ∈ w, (97 ≤ c.toNat ∧ c.toNat ≤ 122) ∨ (48 ≤ c.toNat ∧ c.toNat ≤ 57))
    (hv : ∀ c, v.head? = some c → spaceUnd c = true ∨ c = '|' ∨ c = '\x7d')
    (hne : w ≠ u.map pyLower) :
    matchAtEmpty w ('\x7b' :: '\x7b' :: (u ++ v)) = none := by
  obtain ⟨htw, hdw⟩ := takeWhile_dropWhile_plain u v hu hpu
  rcases matchLit_plain_cases w u v hu hpu hw hv hne with hml | ⟨u2, hml, hu2, hne2⟩
  · simp only [matchAtEmpty, and_self, if_true, hdw, hml]
  · have hpu2 : ∀ c ∈ u2, plainChar c = true := by
      intro c hc
      rw [hu2] at hc
      exact hpu c (List.mem_of_mem_drop hc)
    obtain ⟨c0, u2', rfl⟩ := List.exists_cons_of_ne_nil hne2
    have hp0 : plainChar c0 = true := hpu2 c0 (List.mem_cons_self ..)
    have hsp0 : spaceUnd c0 = false := plain_not_spaceUnd c0 hp0
    simp only [matchAtEmpty, and_self, if_true, hdw, hml, List.cons_append,
      List.dropWhile_cons, hsp0, Bool.false_eq_true, if_false]
    cases hrest : u2' ++ v with
    | nil => rfl
    | cons d rest2 =>
      simp [plain_ne_cbrace c0 hp0]

theorem scanAux_nobrace (m : Matcher) (s : List Char) (pos : Nat)
    (h : ∀ c ∈ s, c ≠ '\x7b') : scanAux m s pos 0 = [] := by
  apply scanAux_eq_nil_of_no_match
  intro t ht
  cases t with
  | nil => exact matchAt_nil m
  | cons c t' =>
    exact matchAt_not_obrace m c t' (h c (ht.subset (List.mem_cons_self ..)))

theorem scanAux_obrace_nobrace (m : Matcher) (s : List Char) (pos : Nat)
    (h : ∀ c ∈ s, c ≠ '\x7b') : scanAux m ('\x7b' :: s) pos 0 = [] := by
  cases s with
  | nil =>
    simp only [scanAux, matchAt_single m '\x7b']
  | cons c s' =>
    have h2 := matchAt_not_obrace_second m c s' (h c (List.mem_cons_self ..))
    simp only [scanAux, h2]
    exact scanAux_nobrace m (c :: s') (pos + 1) h

theorem runMatcher_of_full_match (m : Matcher) (c : Char) (s ty op : List Char)
    (hma : matchAt m (c :: s) = some (c :: s, ty, op, [])) :
    runMatcher m (c :: s) =
      [⟨(0, s.length + 1), [("type", ⟨ty⟩), ("options", ⟨op⟩)]⟩] := by
  unfold runMatcher
  simp only [scanAux, hma]
  rw [scanAux_skip_ge m s 1 ((c :: s).length - 1) (by simp)]
  simp

theorem runMatcher_braces_none (m : Matcher) (u v : List Char)
    (hm0 : matchAt m ('\x7b' :: '\x7b' :: (u ++ v)) = none)
    (hnb : ∀ c ∈ u ++ v, c ≠ '\x7b') :
    runMatcher m ('\x7b' :: '\x7b' :: (u ++ v)) = [] := by
  unfold runMatcher
  simp only [scanAux, hm0]
  exact scanAux_obrace_nobrace m (u ++ v) 1 hnb

theorem handleMatch_concrete (sp : Nat × Nat) (ty : List Char) (op : String)
    (hty : ty ≠ []) :
    handleMatch ⟨sp, [("type", ⟨ty⟩), ("options", op)]⟩ =
      .yield ⟨⟨⟨ty⟩, parse_options op⟩, sp⟩ := by
  have h1 : (RawMatch.mk sp [("type", ⟨ty⟩), ("options", op)]).group "type" =
      some ⟨ty⟩ := rfl
  have h2 : (RawMatch.mk sp [("type", ⟨ty⟩), ("options", op)]).group "options" =
      some op := rfl
  unfold handleMatch
  simp only [h1, h2]
  rw [if_neg ?hne]
  case hne =>
    intro he
    exact hty (congrArg String.data he)

theorem consume_single_yield (raw : RawMatch) (r : CaptureResult Wikibreak)
    (h : handleMatch raw = .yield r) : consume [raw] = ([r], none) := by
  simp [consume, h]

theorem flatten_map_eq_single {β : Type} (voc : List String) (T : String)
    (f : String → List β) (r : β) (hT : T ∈ voc)
    (hnodup : (voc.map lowerString).Nodup)
    (heq : ∀ V ∈ voc, lowerString V = lowerString T → f V = [r])
    (hne : ∀ V ∈ voc, lowerString V ≠ lowerString T → f V = []) :
    (voc.map f).flatten = [r] := by
  induction voc with
  | nil => exact absurd hT (by simp)
  | cons V voc2 ih =>
    simp only [List.map_cons, List.flatten_cons]
    simp only [List.map_cons, List.nodup_cons] at hnodup
    obtain ⟨hnotin, hnd2⟩ := hnodup
    by_cases hVT : lowerString V = lowerString T
    · rw [heq V (List.mem_cons_self ..) hVT]
      have hrest : ∀ V2 ∈ voc2, f V2 = [] := by
        intro V2 hV2
        apply hne V2 (List.mem_cons_of_mem _ hV2)
        intro hVT2
        apply hnotin
        have hVV : lowerString V2 = lowerString V := by rw [hVT2, hVT]
        exact hVV ▸ List.mem_map_of_mem lowerString hV2
      have hflat : (voc2.map f).flatten = [] := by
        rw [List.map_congr_left hrest]
        simp
      rw [hflat, List.append_nil]
    · rw [hne V (List.mem_cons_self ..) hVT, List.nil_append]
      have hT2 : T ∈ voc2 := by
        rcases List.mem_cons.mp hT with h | h
        · exact absurd (by rw [h]) hVT
        · exact h
      exact ih hT2 hnd2 (fun V2 h2 hl => heq V2 (List.mem_cons_of_mem _ h2) hl)
        (fun V2 h2 hl => hne V2 (List.mem_cons_of_mem _ h2) hl)

theorem matchAt_opt_def (w s : List Char) :
    matchAt ⟨w, .optionBearing⟩ s = matchAtOpt w s := rfl

theorem matchAt_empty_def (w s : List Char) :
    matchAt ⟨w, .emptyShape⟩ s = matchAtEmpty w s := rfl

theorem buildWord_lowered (W : String) (hW : plainWord W = true) :
    ∀ c ∈ buildWord W,
      (97 ≤ c.toNat ∧ c.toNat ≤ 122) ∨ (48 ≤ c.toNat ∧ c.toNat ≤ 57) := by
  intro c hc
  rw [buildWord_plain W hW] at hc
  obtain ⟨c0, hc0, rfl⟩ := List.mem_map.mp hc
  exact pyLower_toNat_of_plain c0 ((plainWord_mem W hW).2 c0 hc0)

theorem buildWord_ne_of_lower_ne (W T : String) (hW : plainWord W = true)
    (hne : lowerString W ≠ lowerString T) : buildWord W ≠ T.data.map pyLower := by
  intro heq
  apply hne
  have hdata : W.data.map pyLower = T.data.map pyLower := by
    rw [← buildWord_plain W hW, heq]
  unfold lowerString
  rw [hdata]

theorem buildWord_eq_of_lower_eq (W T : String) (hW : plainWord W = true)
    (heq : lowerString W = lowerString T) : buildWord W = T.data.map pyLower := by
  rw [buildWord_plain W hW]
  exact congrArg String.data heq

theorem runMatcher_plain_ne (m : Matcher) (u v : List Char) (hu : u ≠ [])
    (hpu : ∀ c ∈ u, plainChar c = true)
    (hw : ∀ c ∈ m.word, (97 ≤ c.toNat ∧ c.toNat ≤ 122) ∨ (48 ≤ c.toNat ∧ c.toNat ≤ 57))
    (hv : ∀ c, v.head? = some c → spaceUnd c = true ∨ c = '|' ∨ c = '\x7d')
    (hnb : ∀ c ∈ v, c ≠ '\x7b')
    (hne : m.word ≠ u.map pyLower) :
    runMatcher m ('\x7b' :: '\x7b' :: (u ++ v)) = [] := by
  apply runMatcher_braces_none
  · rcases m with ⟨w, sh⟩
    cases sh with
    | optionBearing =>
      exact matchAtOpt_plain_ne w u v hu hpu hw hv hne
    | emptyShape =>
      exact matchAtEmpty_plain_ne w u v hu hpu hw hv hne
  · intro c hc
    rcases List.mem_append.mp hc with hc | hc
    · exact plain_ne_obrace c (hpu c hc)
    · exact hnb c hc

theorem runMatcher_opt_abc (u : List Char) (hu : u ≠ [])
    (hp : ∀ c ∈ u, plainChar c = true) :
    runMatcher ⟨u.map pyLower, .optionBearing⟩
        ('\x7b' :: '\x7b' :: (u ++ ['|', 'a', '|', 'b', '|', 'c', '\x7d', '\x7d'])) =
      [⟨(0, u.length + 10), [("type", ⟨u⟩), ("options", "a|b|c")]⟩] := by
  have e1 : List.dropWhile spaceUnd ['|', 'a', '|', 'b', '|', 'c', '\x7d', '\x7d'] =
      ['|', 'a', '|', 'b', '|', 'c', '\x7d', '\x7d'] := by decide
  have e2 : List.takeWhile spaceUnd ['|', 'a', '|', 'b', '|', 'c', '\x7d', '\x7d'] =
      ([] : List Char) := by decide
  have e3 : lastCloseSplit ['a', '|', 'b', '|', 'c', '\x7d', '\x7d'] =
      some (['a', '|', 'b', '|', 'c'], []) := by decide
  have hma : matchAt ⟨u.map pyLower, .optionBearing⟩
      ('\x7b' :: '\x7b' :: (u ++ ['|', 'a', '|', 'b', '|', 'c', '\x7d', '\x7d'])) =
      some ('\x7b' :: '\x7b' :: (u ++ ['|', 'a', '|', 'b', '|', 'c', '\x7d', '\x7d']),
        u, ['a', '|', 'b', '|', 'c'], []) := by
    rw [matchAt_opt_def]
    rw [matchAtOpt_plain_eq u _ hu hp, e1]
    simp [e2, e3]
  rw [runMatcher_of_full_match _ _ _ _ _ hma]
  simp [List.length_append]

theorem runMatcher_empty_abc (u : List Char) (hu : u ≠ [])
    (hp : ∀ c ∈ u, plainChar c = true) :
    runMatcher ⟨u.map pyLower, .emptyShape⟩
        ('\x7b' :: '\x7b' :: (u ++ ['|', 'a', '|', 'b', '|', 'c', '\x7d', '\x7d'])) =
      [] := by
  have e1 : List.dropWhile spaceUnd ['|', 'a', '|', 'b', '|', 'c', '\x7d', '\x7d'] =
      ['|', 'a', '|', 'b', '|', 'c', '\x7d', '\x7d'] := by decide
  apply runMatcher_braces_none
  · rw [matchAt_empty_def]
    rw [matchAtEmpty_plain_eq u _ hu hp, e1]
    simp
  · intro c hc
    rcases List.mem_append.mp hc with hc | hc
    · exact plain_ne_obrace c (hp c hc)
    · simp only [List.mem_cons, List.not_mem_nil, or_false] at hc
      rcases hc with rfl | rfl | rfl | rfl | rfl | rfl | rfl | rfl <;> decide

theorem runMatcher_empty_plainT (u : List Char) (hu : u ≠ [])
    (hp : ∀ c ∈ u, plainChar c = true) :
    runMatcher ⟨u.map pyLower, .emptyShape⟩
        ('\x7b' :: '\x7b' :: (u ++ ['\x7d', '\x7d'])) =
      [⟨(0, u.length + 4), [("type", ⟨u⟩), ("options", "")]⟩] := by
  have e1 : List.dropWhile spaceUnd ['\x7d', '\x7d'] = ['\x7d', '\x7d'] := by decide
  have e2 : List.takeWhile spaceUnd ['\x7d', '\x7d'] = ([] : List Char) := by decide
  have hma : matchAt ⟨u.map pyLower, .emptyShape⟩
      ('\x7b' :: '\x7b' :: (u ++ ['\x7d', '\x7d'])) =
      some ('\x7b' :: '\x7b' :: (u ++ ['\x7d', '\x7d']), u, [], []) := by
    rw [matchAt_empty_def]
    rw [matchAtEmpty_plain_eq u _ hu hp, e1]
    simp [e2]
  rw [runMatcher_of_full_match _ _ _ _ _ hma]
  simp [List.length_append]

theorem runMatcher_opt_plainT (u : List Char) (hu : u ≠ [])
    (hp : ∀ c ∈ u, plainChar c = true) :
    runMatcher ⟨u.map pyLower, .optionBearing⟩
        ('\x7b' :: '\x7b' :: (u ++ ['\x7d', '\x7d'])) = [] := by
  have e1 : List.dropWhile spaceUnd ['\x7d', '\x7d'] = ['\x7d', '\x7d'] := by decide
  apply runMatcher_braces_none
  · rw [matchAt_opt_def]
    rw [matchAtOpt_plain_eq u _ hu hp, e1]
    simp
  · intro c hc
    rcases List.mem_append.mp hc with hc | hc
    · exact plain_ne_obrace c (hp c hc)
    · simp only [List.mem_cons, List.not_mem_nil, or_false] at hc
      rcases hc with rfl | rfl <;> decide

theorem runMatcher_opt_spaces (u : List Char) (hu : u ≠ [])
    (hp : ∀ c ∈ u, plainChar c = true) :
    runMatcher ⟨u.map pyLower, .optionBearing⟩
        ('\x7b' :: '\x7b' :: (u ++ [' ', '|', ' ', ' ', '\x7d', '\x7d'])) =
      [⟨(0, u.length + 8), [("type", ⟨u⟩), ("options", "  ")]⟩] := by
  have e1 : List.dropWhile spaceUnd [' ', '|', ' ', ' ', '\x7d', '\x7d'] =
      ['|', ' ', ' ', '\x7d', '\x7d'] := by decide
  have e2 : List.takeWhile spaceUnd [' ', '|', ' ', ' ', '\x7d', '\x7d'] =
      [' '] := by decide
  have e3 : lastCloseSplit [' ', ' ', '\x7d', '\x7d'] = some ([' ', ' '], []) := by
    decide
  have hma : matchAt ⟨u.map pyLower, .optionBearing⟩
      ('\x7b' :: '\x7b' :: (u ++ [' ', '|', ' ', ' ', '\x7d', '\x7d'])) =
      some ('\x7b' :: '\x7b' :: (u ++ [' ', '|', ' ', ' ', '\x7d', '\x7d']),
        u, [' ', ' '], []) := by
    rw [matchAt_opt_def]
    rw [matchAtOpt_plain_eq u _ hu hp, e1]
    simp [e2, e3]
  rw [runMatcher_of_full_match _ _ _ _ _ hma]
  simp [List.length_append]

theorem runMatcher_empty_spaces (u : List Char) (hu : u ≠ [])
    (hp : ∀ c ∈ u, plainChar c = true) :
    runMatcher ⟨u.map pyLower, .emptyShape⟩
        ('\x7b' :: '\x7b' :: (u ++ [' ', '|', ' ', ' ', '\x7d', '\x7d'])) = [] := by
  have e1 : List.dropWhile spaceUnd [' ', '|', ' ', ' ', '\x7d', '\x7d'] =
      ['|', ' ', ' ', '\x7d', '\x7d'] := by decide
  apply runMatcher_braces_none
  · rw [matchAt_empty_def]
    rw [matchAtEmpty_plain_eq u _ hu hp, e1]
    simp
  · intro c hc
    rcases List.mem_append.mp hc with hc | hc
    · exact plain_ne_obrace c (hp c hc)
    · simp only [List.mem_cons, List.not_mem_nil, or_false] at hc
      rcases hc with rfl | rfl | rfl | rfl | rfl | rfl <;> decide

/-- C5 (amended): for every alphanumeric vocabulary name `T` (in a
vocabulary of alphanumeric names, pairwise distinct up to case), extracting
from `\x7b\x7bT|a|b|c\x7d\x7d` yields exactly one annotation, with
`type_name = T` exactly as written in the text (equal to the vocabulary
entry, but not lower-cased), `options = ["a","b","c"]`, and span covering
the whole literal (0, `|T| + 10`). -/
theorem extract_T_abc (voc : List String) (T : String)
    (hT : plainWord T = true) (hmem : T ∈ voc)
    (hvoc : ∀ w ∈ voc, plainWord w = true)
    (hnodup : (voc.map lowerString).Nodup) :
    wikibreaks_extractor voc ("\x7b\x7b" ++ T ++ "|a|b|c\x7d\x7d") =
      ([⟨⟨T, ["a", "b", "c"]⟩, (0, T.length + 10)⟩], []) := by
  obtain ⟨hTn, hTp⟩ := plainWord_mem T hT
  have htd : ("\x7b\x7b" ++ T ++ "|a|b|c\x7d\x7d" : String).data =
      '\x7b' :: '\x7b' :: (T.data ++ ['|', 'a', '|', 'b', '|', 'c', '\x7d', '\x7d']) := by
    simp [String.data_append, List.append_assoc]
  have hv5 : ∀ c : Char,
      (['|', 'a', '|', 'b', '|', 'c', '\x7d', '\x7d'] : List Char).head? = some c →
        spaceUnd c = true ∨ c = '|' ∨ c = '\x7d' := by
    intro c hc
    simp only [List.head?_cons, Option.some.injEq] at hc
    subst hc
    exact Or.inr (Or.inl rfl)
  have hnb5 : ∀ c ∈ (['|', 'a', '|', 'b', '|', 'c', '\x7d', '\x7d'] : List Char),
      c ≠ '\x7b' := by
    intro c hc
    simp only [List.mem_cons, List.not_mem_nil, or_false] at hc
    rcases hc with rfl | rfl | rfl | rfl | rfl | rfl | rfl | rfl <;> decide
  have hoptval : ∀ W ∈ voc,
      consume (runMatcher ⟨buildWord W, .optionBearing⟩
        ('\x7b' :: '\x7b' :: (T.data ++ ['|', 'a', '|', 'b', '|', 'c', '\x7d', '\x7d']))) =
      if lowerString W = lowerString T
      then ([⟨⟨T, ["a", "b", "c"]⟩, (0, T.data.length + 10)⟩], none)
      else ([], none) := by
    intro W hW
    by_cases hlw : lowerString W = lowerString T
    · rw [if_pos hlw, buildWord_eq_of_lower_eq W T (hvoc W hW) hlw,
        runMatcher_opt_abc T.data hTn hTp,
        consume_single_yield _ _ (handleMatch_concrete _ T.data "a|b|c" hTn),
        show parse_options "a|b|c" = ["a", "b", "c"] from by decide]
    · rw [if_neg hlw,
        runMatcher_plain_ne ⟨buildWord W, .optionBearing⟩ T.data _ hTn hTp
          (buildWord_lowered W (hvoc W hW)) hv5 hnb5
          (buildWord_ne_of_lower_ne W T (hvoc W hW) hlw)]
      rfl
  have hempval : ∀ W ∈ voc,
      consume (runMatcher ⟨buildWord W, .emptyShape⟩
        ('\x7b' :: '\x7b' :: (T.data ++ ['|', 'a', '|', 'b', '|', 'c', '\x7d', '\x7d']))) =
      ([], none) := by
    intro W hW
    by_cases hlw : lowerString W = lowerString T
    · rw [buildWord_eq_of_lower_eq W T (hvoc W hW) hlw,
        runMatcher_empty_abc T.data hTn hTp]
      rfl
    · rw [runMatcher_plain_ne ⟨buildWord W, .emptyShape⟩ T.data _ hTn hTp
          (buildWord_lowered W (hvoc W hW)) hv5 hnb5
          (buildWord_ne_of_lower_ne W T (hvoc W hW) hlw)]
      rfl
  have hnoab : ∀ m ∈ WIKIBREAKS_REs voc,
      (consume (runMatcher m
        ('\x7b' :: '\x7b' :: (T.data ++ ['|', 'a', '|', 'b', '|', 'c', '\x7d', '\x7d'])))).2 =
      none := by
    intro m hm
    rcases List.mem_append.mp hm with hm' | hm'
    · obtain ⟨W, hW, rfl⟩ := List.mem_map.mp hm'
      rw [hoptval W hW]
      split <;> rfl
    · obtain ⟨W, hW, rfl⟩ := List.mem_map.mp hm'
      rw [hempval W hW]
  unfold wikibreaks_extractor
  rw [htd, go_eq_of_no_abort _ (WIKIBREAKS_REs voc) hnoab]
  suffices hres : ((WIKIBREAKS_REs voc).map (fun m => (consume (runMatcher m
      ('\x7b' :: '\x7b' :: (T.data ++ ['|', 'a', '|', 'b', '|', 'c', '\x7d', '\x7d'])))).1)).flatten =
      [⟨⟨T, ["a", "b", "c"]⟩, (0, T.length + 10)⟩] by
    rw [hres]
  unfold WIKIBREAKS_REs WIKIBREAKS_PATTERN_REs WIKIBREAKS_EMPTY_PATTERN_REs
  rw [List.map_append, List.flatten_append, List.map_map, List.map_map]
  have hA : (voc.map ((fun m => (consume (runMatcher m
      ('\x7b' :: '\x7b' :: (T.data ++ ['|', 'a', '|', 'b', '|', 'c', '\x7d', '\x7d'])))).1) ∘
        (fun w => (⟨buildWord w, .optionBearing⟩ : Matcher)))).flatten =
      [⟨⟨T, ["a", "b", "c"]⟩, (0, T.data.length + 10)⟩] := by
    apply flatten_map_eq_single voc T _ _ hmem hnodup
    · intro V hV hl
      simp only [Function.comp_apply]
      rw [hoptval V hV, if_pos hl]
    · intro V hV hl
      simp only [Function.comp_apply]
      rw [hoptval V hV, if_neg hl]
  have hB : (voc.map ((fun m => (consume (runMatcher m
      ('\x7b' :: '\x7b' :: (T.data ++ ['|', 'a', '|', 'b', '|', 'c', '\x7d', '\x7d'])))).1) ∘
        (fun w => (⟨buildWord w, .emptyShape⟩ : Matcher)))).flatten = [] := by
    have : ∀ V ∈ voc, ((fun m => (consume (runMatcher m
        ('\x7b' :: '\x7b' :: (T.data ++ ['|', 'a', '|', 'b', '|', 'c', '\x7d', '\x7d'])))).1) ∘
          (fun w => (⟨buildWord w, .emptyShape⟩ : Matcher))) V =
        ([] : List (CaptureResult Wikibreak)) := by
      intro V hV
      simp only [Function.comp_apply]
      rw [hempval V hV]
    rw [List.map_congr_left this]
    simp
  rw [hA, hB, List.append_nil]
  rfl

theorem flatten_map_eq_entry {β : Type} (voc : List String) (T : String)
    (f : String → List β) (X : List β) (hT : T ∈ voc)
    (hnodup : (voc.map lowerString).Nodup)
    (heq : ∀ V ∈ voc, lowerString V = lowerString T → f V = X)
    (hne : ∀ V ∈ voc, lowerString V ≠ lowerString T → f V = []) :
    (voc.map f).flatten = X := by
  induction voc with
  | nil => exact absurd hT (by simp)
  | cons V voc2 ih =>
    simp only [List.map_cons, List.flatten_cons]
    simp only [List.map_cons, List.nodup_cons] at hnodup
    obtain ⟨hnotin, hnd2⟩ := hnodup
    by_cases hVT : lowerString V = lowerString T
    · rw [heq V (List.mem_cons_self ..) hVT]
      have hrest : ∀ V2 ∈ voc2, f V2 = [] := by
        intro V2 hV2
        apply hne V2 (List.mem_cons_of_mem _ hV2)
        intro hVT2
        apply hnotin
        have hVV : lowerString V2 = lowerString V := by rw [hVT2, hVT]
        exact hVV ▸ List.mem_map_of_mem lowerString hV2
      have hflat : (voc2.map f).flatten = [] := by
        rw [List.map_congr_left hrest]
        simp
      rw [hflat, List.append_nil]
    · rw [hne V (List.mem_cons_self ..) hVT, List.nil_append]
      have hT2 : T ∈ voc2 := by
        rcases List.mem_cons.mp hT with h | h
        · exact absurd (by rw [h]) hVT
        · exact h
      exact ih hT2 hnd2 (fun V2 h2 hl => heq V2 (List.mem_cons_of_mem _ h2) hl)
        (fun V2 h2 hl => hne V2 (List.mem_cons_of_mem _ h2) hl)

theorem extractor_plain_template (voc : List String) (T : String) (v : List Char)
    (hT : plainWord T = true) (hmem : T ∈ voc)
    (hvoc : ∀ w ∈ voc, plainWord w = true)
    (hnodup : (voc.map lowerString).Nodup)
    (hv : ∀ c, v.head? = some c → spaceUnd c = true ∨ c = '|' ∨ c = '\x7d')
    (hnb : ∀ c ∈ v, c ≠ '\x7b')
    (ro re : List (CaptureResult Wikibreak))
    (hro : consume (runMatcher ⟨T.data.map pyLower, .optionBearing⟩
        ('\x7b' :: '\x7b' :: (T.data ++ v))) = (ro, none))
    (hre : consume (runMatcher ⟨T.data.map pyLower, .emptyShape⟩
        ('\x7b' :: '\x7b' :: (T.data ++ v))) = (re, none)) :
    wikibreaks_extractor_go (WIKIBREAKS_REs voc)
        ('\x7b' :: '\x7b' :: (T.data ++ v)) = (ro ++ re, []) := by
  obtain ⟨hTn, hTp⟩ := plainWord_mem T hT
  have hoptval : ∀ W ∈ voc,
      consume (runMatcher ⟨buildWord W, .optionBearing⟩
        ('\x7b' :: '\x7b' :: (T.data ++ v))) =
      if lowerString W = lowerString T then (ro, none) else ([], none) := by
    intro W hW
    by_cases hlw : lowerString W = lowerString T
    · rw [if_pos hlw, buildWord_eq_of_lower_eq W T (hvoc W hW) hlw]
      exact hro
    · rw [if_neg hlw,
        runMatcher_plain_ne ⟨buildWord W, .optionBearing⟩ T.data v hTn hTp
          (buildWord_lowered W (hvoc W hW)) hv hnb
          (buildWord_ne_of_lower_ne W T (hvoc W hW) hlw)]
      rfl
  have hempval : ∀ W ∈ voc,
      consume (runMatcher ⟨buildWord W, .emptyShape⟩
        ('\x7b' :: '\x7b' :: (T.data ++ v))) =
      if lowerString W = lowerString T then (re, none) else ([], none) := by
    intro W hW
    by_cases hlw : lowerString W = lowerString T
    · rw [if_pos hlw, buildWord_eq_of_lower_eq W T (hvoc W hW) hlw]
      exact hre
    · rw [if_neg hlw,
        runMatcher_plain_ne ⟨buildWord W, .emptyShape⟩ T.data v hTn hTp
          (buildWord_lowered W (hvoc W hW)) hv hnb
          (buildWord_ne_of_lower_ne W T (hvoc W hW) hlw)]
      rfl
  have hnoab : ∀ m ∈ WIKIBREAKS_REs voc,
      (consume (runMatcher m ('\x7b' :: '\x7b' :: (T.data ++ v)))).2 = none := by
    intro m hm
    rcases List.mem_append.mp hm with hm' | hm'
    · obtain ⟨W, hW, rfl⟩ := List.mem_map.mp hm'
      rw [hoptval W hW]
      split <;> rfl
    · obtain ⟨W, hW, rfl⟩ := List.mem_map.mp hm'
      rw [hempval W hW]
      split <;> rfl
  rw [go_eq_of_no_abort _ (WIKIBREAKS_REs voc) hnoab]
  suffices hres : ((WIKIBREAKS_REs voc).map (fun m => (consume (runMatcher m
      ('\x7b' :: '\x7b' :: (T.data ++ v)))).1)).flatten = ro ++ re by
    rw [hres]
  unfold WIKIBREAKS_REs WIKIBREAKS_PATTERN_REs WIKIBREAKS_EMPTY_PATTERN_REs
  rw [List.map_append, List.flatten_append, List.map_map, List.map_map]
  have hA : (voc.map ((fun m => (consume (runMatcher m
      ('\x7b' :: '\x7b' :: (T.data ++ v)))).1) ∘
        (fun w => (⟨buildWord w, .optionBearing⟩ : Matcher)))).flatten = ro := by
    apply flatten_map_eq_entry voc T _ _ hmem hnodup
    · intro V hV hl
      simp only [Function.comp_apply]
      rw [hoptval V hV, if_pos hl]
    · intro V hV hl
      simp only [Function.comp_apply]
      rw [hoptval V hV, if_neg hl]
  have hB : (voc.map ((fun m => (consume (runMatcher m
      ('\x7b' :: '\x7b' :: (T.data ++ v)))).1) ∘
        (fun w => (⟨buildWord w, .emptyShape⟩ : Matcher)))).flatten = re := by
    apply flatten_map_eq_entry voc T _ _ hmem hnodup
    · intro V hV hl
      simp only [Function.comp_apply]
      rw [hempval V hV, if_pos hl]
    · intro V hV hl
      simp only [Function.comp_apply]
      rw [hempval V hV, if_neg hl]
  rw [hA, hB]

/-- C6: for every alphanumeric vocabulary name `T` (in a vocabulary of
alphanumeric names, pairwise distinct up to case), the input
`\x7b\x7bT\x7d\x7d` yields exactly one annotation with an empty options
list, and the whitespace-only-options input `\x7b\x7bT |  \x7d\x7d` also
yields exactly one annotation with an empty options list (the single empty
segment collapses to no options, not `[""]`). -/
theorem extract_T_no_options (voc : List String) (T : String)
    (hT : plainWord T = true) (hmem : T ∈ voc)
    (hvoc : ∀ w ∈ voc, plainWord w = true)
    (hnodup : (voc.map lowerString).Nodup) :
    (wikibreaks_extractor voc ("\x7b\x7b" ++ T ++ "\x7d\x7d") =
      ([⟨⟨T, []⟩, (0, T.length + 4)⟩], [])) ∧
    (wikibreaks_extractor voc ("\x7b\x7b" ++ T ++ " |  \x7d\x7d") =
      ([⟨⟨T, []⟩, (0, T.length + 8)⟩], [])) := by
  obtain ⟨hTn, hTp⟩ := plainWord_mem T hT
  constructor
  · have htd : ("\x7b\x7b" ++ T ++ "\x7d\x7d" : String).data =
        '\x7b' :: '\x7b' :: (T.data ++ ['\x7d', '\x7d']) := by
      simp [String.data_append, List.append_assoc]
    unfold wikibreaks_extractor
    rw [htd, extractor_plain_template voc T ['\x7d', '\x7d'] hT hmem hvoc hnodup
      (by
        intro c hc
        simp only [List.head?_cons, Option.some.injEq] at hc
        subst hc
        exact Or.inr (Or.inr rfl))
      (by
        intro c hc
        simp only [List.mem_cons, List.not_mem_nil, or_false] at hc
        rcases hc with rfl | rfl <;> decide)
      [] [⟨⟨T, []⟩, (0, T.data.length + 4)⟩]
      (by
        rw [runMatcher_opt_plainT T.data hTn hTp]
        rfl)
      (by
        rw [runMatcher_empty_plainT T.data hTn hTp,
          consume_single_yield _ _ (handleMatch_concrete _ T.data "" hTn),
          show parse_options "" = [] from by decide])]
    rfl
  · have htd : ("\x7b\x7b" ++ T ++ " |  \x7d\x7d" : String).data =
        '\x7b' :: '\x7b' :: (T.data ++ [' ', '|', ' ', ' ', '\x7d', '\x7d']) := by
      simp [String.data_append, List.append_assoc]
    unfold wikibreaks_extractor
    rw [htd, extractor_plain_template voc T [' ', '|', ' ', ' ', '\x7d', '\x7d']
      hT hmem hvoc hnodup
      (by
        intro c hc
        simp only [List.head?_cons, Option.some.injEq] at hc
        subst hc
        exact Or.inl rfl)
      (by
        intro c hc
        simp only [List.mem_cons, List.not_mem_nil, or_false] at hc
        rcases hc with rfl | rfl | rfl | rfl | rfl | rfl <;> decide)
      [⟨⟨T, []⟩, (0, T.data.length + 8)⟩] []
      (by
        rw [runMatcher_opt_spaces T.data hTn hTp,
          consume_single_yield _ _ (handleMatch_concrete _ T.data "  " hTn),
          show parse_options "  " = [] from by decide])
      (by
        rw [runMatcher_empty_spaces T.data hTn hTp]
        rfl)]
    rfl

/-- C5 counterexample: for the vocabulary name `T = "Retired"`, the input
`\x7b\x7bRetired|a|b|c\x7d\x7d` yields exactly one annotation with
`options = ["a","b","c"]` and full span, but its `type_name` is `"Retired"`
— not `T.lower() = "retired"` as the claim states. -/
theorem extract_T_abc_counterexample :
    wikibreaks_extractor ["Retired"] "\x7b\x7bRetired|a|b|c\x7d\x7d" =
      ([⟨⟨"Retired", ["a", "b", "c"]⟩, (0, 17)⟩], []) ∧
    ("Retired" : String) ≠ "retired" ∧ lowerString "Retired" = "retired" := by
  exact ⟨by decide, by decide, by decide⟩

/-- C5 witness: the amended statement at a concrete vocabulary and name. -/
theorem extract_T_abc_witness :
    (plainWord "Wikibreak" = true) ∧ "Wikibreak" ∈ ["Wikibreak", "retired"] ∧
    (∀ w ∈ ["Wikibreak", "retired"], plainWord w = true) ∧
    ((["Wikibreak", "retired"].map lowerString).Nodup) ∧
    wikibreaks_extractor ["Wikibreak", "retired"]
        ("\x7b\x7b" ++ "Wikibreak" ++ "|a|b|c\x7d\x7d") =
      ([⟨⟨"Wikibreak", ["a", "b", "c"]⟩, (0, "Wikibreak".length + 10)⟩], []) :=
  ⟨by decide, by decide, by decide, by decide,
    extract_T_abc ["Wikibreak", "retired"] "Wikibreak"
      (by decide) (by decide) (by decide) (by decide)⟩

/-- C6 witness: the statement at a concrete vocabulary and name. -/
theorem extract_T_no_options_witness :
    (plainWord "retired" = true) ∧ "retired" ∈ ["retired", "vacation"] ∧
    (∀ w ∈ ["retired", "vacation"], plainWord w = true) ∧
    ((["retired", "vacation"].map lowerString).Nodup) ∧
    ((wikibreaks_extractor ["retired", "vacation"]
          ("\x7b\x7b" ++ "retired" ++ "\x7d\x7d") =
        ([⟨⟨"retired", []⟩, (0, "retired".length + 4)⟩], [])) ∧
      (wikibreaks_extractor ["retired", "vacation"]
          ("\x7b\x7b" ++ "retired" ++ " |  \x7d\x7d") =
        ([⟨⟨"retired", []⟩, (0, "retired".length + 8)⟩], []))) :=
  ⟨by decide, by decide, by decide, by decide,
    extract_T_no_options ["retired", "vacation"] "retired"
      (by decide) (by decide) (by decide) (by decide)⟩

/-- C6 counterexample: without restrictions on the vocabulary the claim is
false. With the spec-permitted duplicate entry (`["retired", "retired"]`),
the input `\x7b\x7bretired\x7d\x7d` yields two annotations, not exactly
one; and for the space-containing name `"at school"` (one of this
repository's own target templates), VERBOSE mode strips the space out of
the compiled pattern, so `\x7b\x7bat school\x7d\x7d` yields nothing at
all — only the space-stripped spelling `\x7b\x7batschool\x7d\x7d`
matches. -/
theorem extract_T_no_options_counterexample :
    (wikibreaks_extractor ["retired", "retired"] "\x7b\x7bretired\x7d\x7d").1 =
      [⟨⟨"retired", []⟩, (0, 11)⟩, ⟨⟨"retired", []⟩, (0, 11)⟩] ∧
    (wikibreaks_extractor ["at school"] "\x7b\x7bat school\x7d\x7d").1 = [] ∧
    wikibreaks_extractor ["at school"] "\x7b\x7batschool\x7d\x7d" =
      ([⟨⟨"atschool", []⟩, (0, 12)⟩], []) := by
  exact ⟨by decide, by decide, by decide⟩

end Wikidump
